import Mathlib

/-!
Verification development for the Doctor documentation tool
(`euc-releases/documentation-injector`).  The definitions below are a
shallow embedding of the Python sources under `doctor/`: strings are
modelled as `List Char`, generators as list-returning functions, mutable
`ElementTree` manipulation as pure tree rewriting, and raised exceptions
as `Except String` results.  Each definition's doc comment names the
Python function it embeds.
-/

set_option autoImplicit false
set_option maxHeartbeats 1000000

/-! ## Character classes and small string helpers -/

/-- The character class of Python `\s` for ASCII text (`str.strip` and the
`\s*` indent capture operate on this set; tabs are expanded upstream but the
class is kept faithful). -/
def isPySpace (c : Char) : Bool :=
  c = ' ' || c = '\t' || c = '\n' || c = '\r' || c = '\x0b' || c = '\x0c'

/-- End-of-line characters, the class `[\r\n]` used by `_matchTextEOL` and
`rstrip("\n\r")`. -/
def isCRLF (c : Char) : Bool := c = '\n' || c = '\r'

/-- Blank characters of the finish pattern's `[ \t]*` indent group. -/
def isBlankChar (c : Char) : Bool := c = ' ' || c = '\t'

/-- ASCII reading of the regex class `\w` used for the at-command parameter
name capture. -/
def isWordChar (c : Char) : Bool :=
  ('a' ≤ c && c ≤ 'z') || ('A' ≤ c && c ≤ 'Z') || ('0' ≤ c && c ≤ '9') || c = '_'

/-- `n` spaces, the reconstruction of an indent or margin stored as a count
(`CommentLine.indentStr` / `CommentLine.marginStr`). -/
def spaces (n : Nat) : List Char := List.replicate n ' '

/-- Python `str.strip()` on ASCII text: drop leading and trailing
whitespace. -/
def pyStrip (s : List Char) : List Char :=
  ((s.dropWhile isPySpace).reverse.dropWhile isPySpace).reverse

/-- Python `str.rstrip("\n\r")`: drop the trailing run of end-of-line
characters. -/
def rstripCRLF (s : List Char) : List Char :=
  (s.reverse.dropWhile isCRLF).reverse

/-- Split a string into text and trailing end-of-line run, the semantics of
`CommentLine.textEOL`'s setter: `_matchTextEOL = re.compile(r'[\r\n]*$')`
searched in `textEOL`, with `text = textEOL[:match.start()]` and
`eol = textEOL[match.start():]`.  The first position at which that pattern
matches is the start of the maximal trailing `[\r\n]` run. -/
def splitEOL (s : List Char) : List Char × List Char :=
  ((s.reverse.dropWhile isCRLF).reverse, (s.reverse.takeWhile isCRLF).reverse)

/-- Literal matching: `dropLit k s` returns the remainder of `s` after the
literal `k`, or `none` when `s` does not start with `k`. -/
def dropLit : List Char → List Char → Option (List Char)
  | [], s => some s
  | _ :: _, [] => none
  | k :: ks, c :: cs => if c = k then dropLit ks cs else none

/-! ## Content fragment files: `DocGetter.Cache.read` (getter.py 44-72)

A content file is a list of lines (each line normally carries its trailing
end-of-line characters, exactly as Python file iteration yields them).
`cacheRead` embeds the generator `Cache.read`: a line beginning with a
single `#` (not `##`) opens a fragment named by the stripped remainder;
while a fragment is open, a single-`#` line closes it — `rstrip`-ping the
end-of-line characters from the last buffered content line — and the same
line is then examined as the next fragment's header.  At end of file an
open fragment is yielded as is, without the `rstrip` step. -/

/-- One cached fragment, `DocGetter.Cache`. -/
structure CacheEntry where
  absPath : String
  fragment : List Char
  contentLines : List (List Char)
deriving DecidableEq, Repr

/-- `contentLines[-1] = contentLines[-1].rstrip("\n\r")`, with the
`IndexError` on an empty list swallowed (`try`/`except IndexError: pass`). -/
def stripLastEOL : List (List Char) → List (List Char)
  | [] => []
  | [l] => [rstripCRLF l]
  | l :: ls => l :: stripLastEOL ls

/-- The second half of one `Cache.read` loop iteration: with no fragment
open, a line starting with `#` whose stripped remainder is non-empty and
does not itself start with `#` opens a fragment. -/
def cacheHeaderState (line : List Char) : Option (List Char × List (List Char)) :=
  match line with
  | '#' :: rest =>
    let frag := pyStrip rest
    if frag = [] then none
    else if frag.head? = some '#' then none
    else some (frag, [])
  | _ => none

/-- `DocGetter.Cache.read` as a fold over the file's lines.  The state is
the open fragment (name and buffered content lines), if any. -/
def cacheReadGo (absPath : String) :
    Option (List Char × List (List Char)) → List (List Char) → List CacheEntry
  | none, [] => []
  | some (frag, content), [] => [⟨absPath, frag, content⟩]
  | none, line :: rest => cacheReadGo absPath (cacheHeaderState line) rest
  | some (frag, content), line :: rest =>
    if line.head? = some '#' && !(line.take 2 = ['#', '#']) then
      ⟨absPath, frag, stripLastEOL content⟩ ::
        cacheReadGo absPath (cacheHeaderState line) rest
    else
      cacheReadGo absPath (some (frag, content ++ [line])) rest

/-- `DocGetter.Cache.read(absPath)` over the file's lines. -/
def cacheRead (absPath : String) (fileLines : List (List Char)) : List CacheEntry :=
  cacheReadGo absPath none fileLines

/-! ## The fragment cache: `DocGetter.load_file` and `DocGetter._get_content`
(getter.py 120-181) -/

/-- The mutable state of a `DocGetter`: `_cachedFragments` and
`_cachedFiles`. -/
structure GetterState where
  cachedFragments : List CacheEntry
  cachedFiles : List String
deriving DecidableEq, Repr

/-- The `for cache in self.Cache.read(path)` loop body of
`DocGetter.load_file`: each fragment is prepended to the cache
(`self._cachedFragments[0:0] = [cache]`), a repeated fragment name within
the file is a fatal error, and the path is appended to `_cachedFiles`
(once per fragment, as in the source). -/
def loadFileGo (path : String) :
    GetterState → List (List Char) → List CacheEntry → Except String GetterState
  | st, _, [] => .ok st
  | st, seen, e :: es =>
    let st' : GetterState :=
      { cachedFragments := e :: st.cachedFragments, cachedFiles := st.cachedFiles }
    if e.fragment ∈ seen then
      .error "Repeated fragment"
    else
      loadFileGo path
        { st' with cachedFiles := st'.cachedFiles ++ [path] }
        (seen ++ [e.fragment]) es

/-- `DocGetter.load_file(path)`, with the file's parsed fragments supplied
as `fileLines` (the file system read is external). -/
def loadFile (st : GetterState) (path : String) (fileLines : List (List Char)) :
    Except String GetterState :=
  if path ∈ st.cachedFiles then .ok st
  else loadFileGo path st [] (cacheRead path fileLines)

/-- The lookup loop of `DocGetter._get_content` for a cache-only URI
(`doc://#frag`: empty host, so `path is None`, no file is loaded, and the
`absPath` filter is vacuous).  The loop scans `_cachedFragments` start to
finish and keeps the last entry whose fragment name matches; no match is
the fatal `Content ... not found` error. -/
def getContentCacheOnly (st : GetterState) (frag : List Char) : Except String CacheEntry :=
  match st.cachedFragments.foldl
      (fun acc c => if c.fragment = frag then some c else acc) none with
  | none => .error "Content for URI not found in cache."
  | some c => .ok c

/-! ## Comment line patterns (parser.py 42-77)

The three compiled patterns `_commentStart`, `_commentContinue` and
`_commentFinish` are shared by the legacy parser (`SlashStarsParser.read`)
and the tree path (`CommentTree._analyse_line`).  Python's `$` outside
MULTILINE mode matches at the end of the string or just before a single
final newline; `pyDollar` is that test on the remaining input. -/

/-- Python `$` (non-MULTILINE) at the position where `s` is the remaining
input: end of string, or exactly one final newline left. -/
def pyDollar (s : List Char) : Bool := s = [] || s = ['\n']

/-- Captures of `_commentStart`:
`^(?P<indent>\s*)(?P<symbol>/\*\*)(?P<margin> ?)(?:$|(?=[^/]))`.
`rest` is the input after `match.end()`. -/
structure StartCapture where
  indentC : List Char
  marginN : Nat
  rest : List Char
deriving DecidableEq, Repr

/-- Does `(?:$|(?=[^/]))` succeed with remaining input `r`? -/
def startTailOK (r : List Char) : Bool :=
  pyDollar r ||
    (match r with
     | c :: _ => c ≠ '/'
     | [] => false)

/-- `_commentStart` matching (anchored; `search` and `match` coincide).
The greedy `\s*` cannot backtrack usefully because `/` is not whitespace,
and the greedy `(?P<margin> ?)` backtracks to the empty margin when the
look-ahead fails, in which case the look-ahead then sees the space and
always succeeds. -/
def matchStartL (s : List Char) : Option StartCapture :=
  let ind := s.takeWhile isPySpace
  match dropLit ['/', '*', '*'] (s.dropWhile isPySpace) with
  | none => none
  | some r =>
    match r with
    | ' ' :: r' =>
      if startTailOK r' then some ⟨ind, 1, r'⟩
      else some ⟨ind, 0, ' ' :: r'⟩
    | _ => if startTailOK r then some ⟨ind, 0, r⟩ else none

/-- Captures of `_commentContinue`.  `hasSymbol` records whether one of the
`symbol*` groups matched (the group consumed a `*`); `hasMargin` whether
the single-space `margin` group matched; `rest` is the input after
`match.end()`. -/
structure ContCapture where
  indentN : Nat
  hasSymbol : Bool
  hasMargin : Bool
  rest : List Char
deriving DecidableEq, Repr

/-- `_commentContinue` matching: space indent, then the ordered
alternatives `symbolEOL`, `symbolMargin`, `symbolNonSlash`, `EOL`,
`nonSymbol`.  A shorter indent never helps (every alternative rejects a
leading space), so the greedy `(?P<indent> *)` is maximal munch. -/
def matchContL (s : List Char) : Option ContCapture :=
  let ind := (s.takeWhile (fun c => c = ' ')).length
  match s.dropWhile (fun c => c = ' ') with
  | '*' :: r =>
    if pyDollar r then some ⟨ind, true, false, r⟩
    else
      match r with
      | ' ' :: r' => some ⟨ind, true, true, r'⟩
      | c :: _ => if c ≠ '/' then some ⟨ind, true, false, r⟩ else none
      | [] => none
  | [] => some ⟨ind, false, false, []⟩
  | ['\n'] => some ⟨ind, false, false, ['\n']⟩
  | c :: t => if c ≠ '*' && c ≠ ' ' then some ⟨ind, false, false, c :: t⟩ else none

/-- Captures of `_commentFinish`:
`(?P<indent>^[ \t]*)?(?P<symbol>\*/)`, used with `search`.  The optional
indent group can only participate at position 0; `preText` is the text
before `match.start()` and `rest` the text after `match.end()`. -/
structure FinishCapture where
  indentQ : Option (List Char)
  preText : List Char
  rest : List Char
deriving DecidableEq, Repr

/-- Split at the first occurrence of the two-character close leader:
`some (before, after)`, or `none` when there is no occurrence. -/
def splitStarSlash : List Char → Option (List Char × List Char)
  | [] => none
  | '*' :: '/' :: r => some ([], r)
  | c :: r => (splitStarSlash r).map (fun p => (c :: p.1, p.2))

/-- `_commentFinish` searching: the match lands on the first `*/`; the
indent group participates (with the blank run) exactly when everything
before that occurrence is blank. -/
def matchFinishL (s : List Char) : Option FinishCapture :=
  (splitStarSlash s).map (fun p =>
    if p.1.all isBlankChar then ⟨some p.1, [], p.2⟩ else ⟨none, p.1, p.2⟩)

/-! ## Legacy line analyzer: `SlashStarsParser.read` (parser.py 91-181)
with `CommentLine` records (comment_line.py) -/

/-- `CommentLineType`. -/
inductive CPart where
  | start
  | cont
  | finish
deriving DecidableEq, Repr

/-- A `CommentLine`: line number, type, and the five decomposition
components.  `indent` and `margin` are stored as counts (the `indentStr` /
`marginStr` setters require all-space input). -/
structure CLRec where
  number : Nat
  lineType : CPart
  indent : Option Nat
  symbol : Option (List Char)
  margin : Option Nat
  text : Option (List Char)
  eol : Option (List Char)
deriving DecidableEq, Repr

/-- `CommentLine(lineNumber, match)` for a start match: `read_match` stores
the symbol and converts `indent`/`margin` captures through the all-space
setters (`ValueError` otherwise; the margin capture is a space or empty so
only the indent can fail). -/
def mkStartCL (num : Nat) (st : StartCapture) : Except String CLRec :=
  if st.indentC.all (fun c => c = ' ') then
    .ok { number := num, lineType := .start, indent := some st.indentC.length,
          symbol := some ['/', '*', '*'], margin := some st.marginN,
          text := none, eol := none }
  else .error "Wrong value in match"

/-- `CommentLine(lineNumber, match)` for a continue match: the `margin`
group participates only in the `symbolMargin` alternative, the `indent`
group always participates (possibly empty), and the `nonSymbol`/`EOL`
groups set no field. -/
def mkContCL (num : Nat) (c : ContCapture) : CLRec :=
  { number := num, lineType := .cont, indent := some c.indentN,
    symbol := if c.hasSymbol then some ['*'] else none,
    margin := if c.hasMargin then some 1 else none,
    text := none, eol := none }

/-- `CommentLine(lineNumber, match)` for a finish match: the optional
indent group goes through the all-space setter when it participates (a tab
in `[ \t]*` raises `ValueError`). -/
def mkFinishCL (num : Nat) (f : FinishCapture) : Except String CLRec :=
  match f.indentQ with
  | none =>
    .ok { number := num, lineType := .finish, indent := none,
          symbol := some ['*', '/'], margin := none, text := none, eol := none }
  | some ind =>
    if ind.all (fun c => c = ' ') then
      .ok { number := num, lineType := .finish, indent := some ind.length,
            symbol := some ['*', '/'], margin := none, text := none, eol := none }
    else .error "Wrong value in match"

/-- The `textEOL` setter: split the remainder into `text` and `eol`. -/
def setCLTextEOL (r : CLRec) (s : List Char) : CLRec :=
  { r with text := some (splitEOL s).1, eol := some (splitEOL s).2 }

/-- An item of the legacy parser's output stream: a passed-through
`SourceLine` or an analysed `CommentLine`. -/
inductive LItem where
  | srcLine (number : Nat) (line : List Char)
  | cl (r : CLRec)
deriving DecidableEq, Repr

/-- `SlashStarsParser.read` as fuel-indexed recursion.  The state is
`(inComment, sourceLine)`; `none` for `sourceLine` triggers a fetch from
the iterator.  Each branch mirrors one path through the `while True` body;
fuel exhaustion is an explicit error (the supplied fuel in `slashRead` is
always sufficient, each iteration consuming a line or part of one). -/
def slashGo : Nat → Bool → Option (Nat × List Char) → List (Nat × List Char) →
    Except String (List LItem)
  | 0, _, _, _ => .error "fuel exhausted"
  | _ + 1, _, none, [] => .ok []
  | f + 1, inC, none, l :: ls => slashGo f inC (some l) ls
  | f + 1, false, some (num, s), ls =>
    match matchStartL s with
    | none =>
      if s = [] then slashGo f false none ls
      else do
        let items ← slashGo f false none ls
        .ok (.srcLine num s :: items)
    | some st => do
      let startCL ← mkStartCL num st
      match matchFinishL st.rest with
      | some fin => do
        let finCL ← mkFinishCL num fin
        let items ← slashGo f false (some (num, fin.rest)) ls
        .ok (.cl (setCLTextEOL startCL fin.preText) :: .cl finCL :: items)
      | none => do
        let items ← slashGo f true none ls
        .ok (.cl (setCLTextEOL startCL st.rest) :: items)
  | f + 1, true, some (num, s), ls =>
    match matchFinishL s with
    | some fin => do
      let finCL ← mkFinishCL num fin
      if fin.preText = [] then do
        let items ← slashGo f false (some (num, fin.rest)) ls
        .ok (.cl finCL :: items)
      else
        match matchContL fin.preText with
        | none => do
          -- A continuation match failed but a finish is present: the
          -- legacy path yields nothing for the pre-finish text.
          let items ← slashGo f false (some (num, fin.rest)) ls
          .ok (.cl finCL :: items)
        | some c => do
          let items ← slashGo f false (some (num, fin.rest)) ls
          .ok (.cl (setCLTextEOL (mkContCL num c) c.rest) :: .cl finCL :: items)
    | none =>
      if s = [] then .error "Line didn't match start, finish, nor continue."
      else
        match matchContL s with
        | none => .error "Line didn't match start, finish, nor continue."
        | some c => do
          let items ← slashGo f true none ls
          .ok (.cl (setCLTextEOL (mkContCL num c) c.rest) :: items)

/-- Fuel that is always sufficient for `slashGo`: every iteration either
consumes a source line or strictly shortens the held remainder. -/
def lineFuel (ls : List (Nat × List Char)) : Nat :=
  (ls.map (fun l => l.2.length + 2)).sum + ls.length + 2

/-- `SlashStarsParser.read(iterator)`. -/
def slashRead (ls : List (Nat × List Char)) : Except String (List LItem) :=
  slashGo (lineFuel ls) false none ls

/-- The concatenation of a `CommentLine`'s components in the order
`indent + symbol + margin + text + eol`, absent components empty. -/
def clConcat (r : CLRec) : List Char :=
  spaces (r.indent.getD 0) ++ r.symbol.getD [] ++ spaces (r.margin.getD 0) ++
    r.text.getD [] ++ r.eol.getD []

/-- Reconstruction of one output item: a plain line's raw text, or an
analysed line's component concatenation. -/
def itemConcat : LItem → List Char
  | .srcLine _ l => l
  | .cl r => clConcat r

/-! ## Tab expansion: `CommentTree.line_expand_tabs` (comment_tree.py
177-184), via Python `str.expandtabs` -/

/-- `str.expandtabs(tabSize)` with a running column that resets on line
breaks; a tab becomes the spaces up to the next tab stop. -/
def expandTabsGo (tabSize : Nat) : Nat → List Char → List Char
  | _, [] => []
  | col, '\t' :: r =>
    let k := tabSize - col % tabSize
    spaces k ++ expandTabsGo tabSize (col + k) r
  | col, c :: r =>
    c :: expandTabsGo tabSize (if c = '\n' || c = '\r' then 0 else col + 1) r

/-- `str.expandtabs(tabSize)` (the pipeline uses `tabSize = 4`). -/
def expandTabs (tabSize : Nat) (s : List Char) : List Char :=
  expandTabsGo tabSize 0 s

/-! ## Tree line analyzer: `CommentTree.line_star_slash` and
`CommentTree._analyse_line` (comment_tree.py 186-394) -/

/-- An analysed line element from the tree path: the `indent`/`symbol`/
`margin` child texts (absent when the capture was empty or the group did
not participate — `_analyse_line` only sets `text` when `end > start`),
the margin tail (the comment text), and the `eol` child appended by
`_analyse_child_tail` for start and continue elements. -/
structure ARec where
  number : Nat
  part : CPart
  indentT : Option (List Char)
  symbolT : Option (List Char)
  marginT : Option (List Char)
  textT : List Char
  eolT : Option (List Char)
deriving DecidableEq, Repr

/-- Build the start element of `_match_start` (before its tail is set). -/
def mkStartA (num : Nat) (st : StartCapture) : ARec :=
  { number := num, part := .start,
    indentT := if st.indentC = [] then none else some st.indentC,
    symbolT := some ['/', '*', '*'],
    marginT := if st.marginN = 1 then some [' '] else none,
    textT := [], eolT := none }

/-- Build the continue element of `_match_continue`. -/
def mkContA (num : Nat) (c : ContCapture) : ARec :=
  { number := num, part := .cont,
    indentT := if c.indentN = 0 then none else some (spaces c.indentN),
    symbolT := if c.hasSymbol then some ['*'] else none,
    marginT := if c.hasMargin then some [' '] else none,
    textT := [], eolT := none }

/-- Build the finish element of `_match_finish`; its margin tail is pulled
back into the line by the driver, so the emitted element carries no text
and no `eol` child. -/
def mkFinishA (num : Nat) (f : FinishCapture) : ARec :=
  { number := num, part := .finish,
    indentT :=
      match f.indentQ with
      | none => none
      | some i => if i = [] then none else some i,
    symbolT := some ['*', '/'],
    marginT := none, textT := [], eolT := none }

/-- `_analyse_child_tail`: split the margin tail into comment text and an
`eol` child. -/
def setATextEOL (a : ARec) (s : List Char) : ARec :=
  { a with textT := (splitEOL s).1, eolT := some (splitEOL s).2 }

/-- An item of the tree path's line stream: a plain `line` element or an
analysed comment-part element. -/
inductive TItem where
  | lineE (number : Nat) (text : List Char)
  | partE (a : ARec)
deriving DecidableEq, Repr

/-- `CommentTree.line_star_slash` as fuel-indexed recursion, state
`(inComment, lineElement)`.  Differences from the legacy parser are kept:
an empty plain line is a fatal `Empty text` assertion, and non-empty text
left over at a finish is the fatal `Unused line at finish` assertion. -/
def treeGo : Nat → Bool → Option (Nat × List Char) → List (Nat × List Char) →
    Except String (List TItem)
  | 0, _, _, _ => .error "fuel exhausted"
  | _ + 1, _, none, [] => .ok []
  | f + 1, inC, none, l :: ls => treeGo f inC (some l) ls
  | f + 1, false, some (num, s), ls =>
    match matchStartL s with
    | none =>
      if s = [] then .error "Empty text in line element"
      else do
        let items ← treeGo f false none ls
        .ok (.lineE num s :: items)
    | some st =>
      match matchFinishL st.rest with
      | some fin => do
        let items ←
          if fin.rest = [] then treeGo f false none ls
          else treeGo f false (some (num, fin.rest)) ls
        .ok (.partE (setATextEOL (mkStartA num st) fin.preText) ::
             .partE (mkFinishA num fin) :: items)
      | none => do
        let items ← treeGo f true none ls
        .ok (.partE (setATextEOL (mkStartA num st) st.rest) :: items)
  | f + 1, true, some (num, s), ls =>
    match matchFinishL s with
    | some fin =>
      if fin.preText = [] then do
        let items ←
          if fin.rest = [] then treeGo f false none ls
          else treeGo f false (some (num, fin.rest)) ls
        .ok (.partE (mkFinishA num fin) :: items)
      else
        match matchContL fin.preText with
        | none => .error "Unused line at finish"
        | some c => do
          let items ←
            if fin.rest = [] then treeGo f false none ls
            else treeGo f false (some (num, fin.rest)) ls
          .ok (.partE (setATextEOL (mkContA num c) c.rest) ::
               .partE (mkFinishA num fin) :: items)
    | none =>
      if s = [] then .error "Failed to match line"
      else
        match matchContL s with
        | none => .error "Failed to match line"
        | some c => do
          let items ← treeGo f true none ls
          .ok (.partE (setATextEOL (mkContA num c) c.rest) :: items)

/-- `CommentTree.line_elements`: number the raw lines from 1. -/
def numberFrom : Nat → List (List Char) → List (Nat × List Char)
  | _, [] => []
  | n, l :: ls => (n, l) :: numberFrom (n + 1) ls

/-- `CommentTree.line_elements(iterator)`. -/
def lineElements (lines : List (List Char)) : List (Nat × List Char) :=
  numberFrom 1 lines

/-- `CommentTree.line_expand_tabs(iterator, tabSize)`. -/
def lineExpandTabs (tabSize : Nat) (items : List (Nat × List Char)) :
    List (Nat × List Char) :=
  items.map (fun p => (p.1, expandTabs tabSize p.2))

/-- `CommentTree.line_star_slash(iterator)`. -/
def lineStarSlash (items : List (Nat × List Char)) : Except String (List TItem) :=
  treeGo (lineFuel items) false none items

/-! ## Comment segmentation: `CommentTree.comment_blocks` (comment_tree.py
396-429) and `CommentBlock.read` (comment_block.py 85-105) -/

/-- An output of the segmenter: a passed-through line element, or a
`comment` element holding `lineFirst` and its buffered `lines` child. -/
inductive COut where
  | lineO (number : Nat) (text : List Char)
  | commentO (lineFirst : Nat) (lines : List TItem)
deriving DecidableEq, Repr

/-- Line number of a `TItem` (the `number` attribute). -/
def tItemNumber : TItem → Nat
  | .lineE n _ => n
  | .partE a => a.number

/-- `comment_blocks` loop with the open block as state: a part-tagged
element opens or extends the block, a `finish` part closes and emits it,
a non-part element while a block is open flushes the block first, and the
final `if commentElement is not None: yield commentElement` flushes an
unterminated block at end of input. -/
def commentBlocksGo : Option (Nat × List TItem) → List TItem → List COut
  | none, [] => []
  | some (n, buf), [] => [.commentO n buf]
  | none, .lineE num tx :: rest => .lineO num tx :: commentBlocksGo none rest
  | some (n, buf), .lineE num tx :: rest =>
    .commentO n buf :: .lineO num tx :: commentBlocksGo none rest
  | st, .partE a :: rest =>
    let n := match st with
      | none => a.number
      | some (n, _) => n
    let buf := match st with
      | none => []
      | some (_, buf) => buf
    if a.part = .finish then
      .commentO n (buf ++ [.partE a]) :: commentBlocksGo none rest
    else commentBlocksGo (some (n, buf ++ [.partE a])) rest

/-- `CommentTree.comment_blocks(iterator)`. -/
def commentBlocksTree (items : List TItem) : List COut :=
  commentBlocksGo none items

/-- An output of the legacy segmenter `CommentBlock.read`: a comment block
(built by `cls(comment, ...)` from the buffered lines) or a passed-through
item. -/
inductive LOut (β : Type) where
  | blockO (b : β)
  | throughO (it : LItem)
deriving DecidableEq, Repr

/-- Is a legacy stream item comment-typed (`item.lineType is not None`)? -/
def lItemType : LItem → Option CPart
  | .srcLine _ _ => none
  | .cl r => some r.lineType

/-- `CommentBlock.read(iterator, ...)` with the block constructor `mk`
abstracting `cls(comment, *args, **kwargs)` (the `CommentBlock`
constructor is separate code; the grouping and flushing logic modelled
here is `read` itself). -/
def commentBlockRead {β : Type} (mk : List LItem → β) :
    Option (List LItem) → List LItem → List (LOut β)
  | none, [] => []
  | some buf, [] => [.blockO (mk buf)]
  | st, it :: rest =>
    match lItemType it with
    | some ty =>
      let buf := st.getD []
      if ty = .finish then
        .blockO (mk (buf ++ [it])) :: commentBlockRead mk none rest
      else commentBlockRead mk (some (buf ++ [it])) rest
    | none =>
      match st with
      | none => .throughO it :: commentBlockRead mk none rest
      | some buf => .blockO (mk buf) :: .throughO it :: commentBlockRead mk none rest

/-- The items of a segmenter output, in order (a comment contributes its
buffered `lines`). -/
def flattenCOut : List COut → List TItem
  | [] => []
  | .lineO n t :: rest => .lineE n t :: flattenCOut rest
  | .commentO _ buf :: rest => buf ++ flattenCOut rest

/-- The items of a legacy segmenter output, in order, with blocks built by
the identity constructor. -/
def flattenLOut : List (LOut (List LItem)) → List LItem
  | [] => []
  | .blockO b :: rest => b ++ flattenLOut rest
  | .throughO it :: rest => it :: flattenLOut rest

/-- `OutputTree.write_lines(iterator, writer)` restricted to what it does
with the element stream: an element with no `outputs` child has its text
written verbatim (`writer.write(element.text)`); a comment element is
rendered by `_comment_outputs`, abstracted here as the `render`
parameter.  The result is the sequence of written strings. -/
def writeLinesModel (render : Nat → List TItem → List (List Char)) :
    List COut → List (List Char)
  | [] => []
  | .lineO _ t :: rest => t :: writeLinesModel render rest
  | .commentO n buf :: rest => render n buf ++ writeLinesModel render rest

/-! ## The at-command pattern (output_tree.py 86-108, comment_block.py
44-66, comment_tree.py 72-94 — the same compiled regular expression) -/

/-- The five alternative groups of the `atCommand` pattern. -/
inductive AtGroup where
  | drop
  | ret
  | capitalise
  | parameter
  | ignore
deriving DecidableEq, Repr

/-- A match of the `atCommand` pattern: the group that matched, the
captured keyword (`commandReturn` captures only `return`,
`commandParameter` only `param`), the captured parameter `name` (empty for
the other groups), and the input after `match.end()`. -/
structure AtMatch where
  group : AtGroup
  value : List Char
  name : List Char
  rest : List Char
deriving DecidableEq, Repr

/-- ` +`: one or more spaces, maximal munch (nothing following the run in
any alternative can consume a space). -/
def dropSpaces1 : List Char → Option (List Char)
  | ' ' :: r => some (r.dropWhile (fun c => c = ' '))
  | _ => none

/-- ` +(?P<name>\w+) *` of the parameter alternative: spaces, a maximal
non-empty word-character run, then trailing spaces. -/
def dropSpacesName : List Char → Option (List Char × List Char)
  | ' ' :: r =>
    let r' := r.dropWhile (fun c => c = ' ')
    let nm := r'.takeWhile isWordChar
    if nm = [] then none
    else some (nm, (r'.dropWhile isWordChar).dropWhile (fun c => c = ' '))
  | _ => none

/-- `(?P<commandDrop>(?:brief|description|details)) +` (at most one of the
three literals can match; they are not prefixes of one another). -/
def atTryDrop (s : List Char) : Option AtMatch :=
  match dropLit ('b' :: 'r' :: 'i' :: 'e' :: 'f' :: []) s with
  | some r => (dropSpaces1 r).map (fun r' => ⟨.drop, "brief".toList, [], r'⟩)
  | none =>
    match dropLit "description".toList s with
    | some r => (dropSpaces1 r).map (fun r' => ⟨.drop, "description".toList, [], r'⟩)
    | none =>
      match dropLit "details".toList s with
      | some r => (dropSpaces1 r).map (fun r' => ⟨.drop, "details".toList, [], r'⟩)
      | none => none

/-- `(?P<commandReturn>return)s? +`: the greedy optional `s` is tried
first, falling back to the spaces directly. -/
def atTryReturn (s : List Char) : Option AtMatch :=
  match dropLit "return".toList s with
  | none => none
  | some r =>
    match r with
    | 's' :: r' =>
      match dropSpaces1 r' with
      | some r'' => some ⟨.ret, "return".toList, [], r''⟩
      | none => (dropSpaces1 r).map (fun r'' => ⟨.ret, "return".toList, [], r''⟩)
    | _ => (dropSpaces1 r).map (fun r'' => ⟨.ret, "return".toList, [], r''⟩)

/-- `(?P<commandCapitalise>version) +`. -/
def atTryCapitalise (s : List Char) : Option AtMatch :=
  match dropLit "version".toList s with
  | some r => (dropSpaces1 r).map (fun r' => ⟨.capitalise, "version".toList, [], r'⟩)
  | none => none

/-- `(?P<commandParameter>param)(?:eter)? +(?P<name>\w+) *`: the greedy
optional `eter` is tried first, with backtracking to the bare `param`. -/
def atTryParameter (s : List Char) : Option AtMatch :=
  match dropLit "param".toList s with
  | none => none
  | some r =>
    match dropLit "eter".toList r with
    | some r' =>
      match dropSpacesName r' with
      | some p => some ⟨.parameter, "param".toList, p.1, p.2⟩
      | none =>
        (dropSpacesName r).map (fun p => ⟨.parameter, "param".toList, p.1, p.2⟩)
    | none =>
      (dropSpacesName r).map (fun p => ⟨.parameter, "param".toList, p.1, p.2⟩)

/-- `(?P<commandIgnore>file) +`. -/
def atTryIgnore (s : List Char) : Option AtMatch :=
  match dropLit "file".toList s with
  | some r => (dropSpaces1 r).map (fun r' => ⟨.ignore, "file".toList, [], r'⟩)
  | none => none

/-- `atCommand.match(s)`: an `@` followed by the ordered alternatives. -/
def atCommandMatch (s : List Char) : Option AtMatch :=
  match s with
  | '@' :: r =>
    match atTryDrop r with
    | some m => some m
    | none =>
      match atTryReturn r with
      | some m => some m
      | none =>
        match atTryCapitalise r with
        | some m => some m
        | none =>
          match atTryParameter r with
          | some m => some m
          | none => atTryIgnore r
  | _ => none

/-! ## At-command rewriting: `OutputTree._at_command_hanging`
(output_tree.py 266-328) and `CommentBlock._at_line` (comment_block.py
225-273) -/

/-- `value.capitalize()`: first character upper-cased, the rest
lower-cased. -/
def pyCapitalize : List Char → List Char
  | [] => []
  | c :: r => c.toUpper :: r.map Char.toLower

/-- The rewritten prefix for a matched at-command, the common core of
`_at_command_hanging` and `_at_line`: `none` for the ignore group (which
returns without rewriting), otherwise the target-convention prefix.
`lowered` is `f"@{value.lower()} "`. -/
def atRewriteHead (m : AtMatch) (swift : Bool) : Option (List Char) :=
  let lowered := '@' :: m.value.map Char.toLower ++ [' ']
  match m.group with
  | .parameter =>
    some ((if swift then "- Parameter ".toList else lowered) ++ m.name ++
      (if swift then [':'] else []) ++ [' '])
  | .drop => some (if swift then [] else lowered)
  | .capitalise =>
    some (if swift then '-' :: ' ' :: pyCapitalize m.value ++ [':', ' '] else lowered)
  | .ret => some (if swift then "- Returns: ".toList else lowered)
  | .ignore => none

/-- The outcome of `_at_command_hanging` on one output element that has a
`hanging` attribute: the (possibly rewritten) element text, the returned
hanging width, whether the unrecognised-at-command warning element was
inserted, and the `atPrefix` attribute value when one was set. -/
structure AtOutcome where
  text : List Char
  hanging : Nat
  warned : Bool
  headAttr : Option (List Char)
deriving DecidableEq, Repr

/-- `OutputTree._at_command_hanging(element, swift)` for an element with
text `text` and `hanging` attribute `hanging`.  No match leaves the text
alone, warning when the whole text starts with `@`; the ignore group
returns the hanging width unchanged without touching the text; any other
group splices its prefix in place of the matched span and widens the
hanging indent by the prefix length. -/
def atCommandHanging (text : List Char) (hanging : Nat) (swift : Bool) : AtOutcome :=
  match atCommandMatch (text.drop hanging) with
  | none =>
    { text := text, hanging := hanging,
      warned := text.head? = some '@', headAttr := none }
  | some m =>
    match atRewriteHead m swift with
    | none => { text := text, hanging := hanging, warned := false, headAttr := none }
    | some pfx =>
      { text := text.take hanging ++ pfx ++ m.rest,
        hanging := hanging + pfx.length,
        warned := false, headAttr := some pfx }

/-- `CommentBlock._at_line(line)`: returns the rewrite head and the line
after the match (`(None, line)` for no match and for the ignore group),
plus whether the unrecognised-at-command warning was printed. -/
def atLine (line : List Char) (swift : Bool) :
    (Option (List Char) × List Char) × Bool :=
  match atCommandMatch line with
  | none => ((none, line), line.head? = some '@')
  | some m =>
    match atRewriteHead m swift with
    | none => ((none, line), false)
    | some pfx => ((some pfx, m.rest), false)

/-! ## Document trees (`xml.etree.ElementTree` elements as used by
markdown_tree.py and getter.py) -/

/-- Attribute lookup in an element's attribute dictionary. -/
def attrGet (attrs : List (String × String)) (k : String) : Option String :=
  (attrs.find? (fun p => p.1 = k)).map (fun p => p.2)

/-- `element.set(k, v)`: update in place, or append a new key (dictionary
insertion order). -/
def attrSet (attrs : List (String × String)) (k v : String) :
    List (String × String) :=
  if (attrs.find? (fun p => p.1 = k)).isSome then
    attrs.map (fun p => if p.1 = k then (k, v) else p)
  else attrs ++ [(k, v)]

/-- An `ElementTree` element: tag, attribute dictionary, text, children.
(Tails are unused on the document trees these claims concern.) -/
inductive MTree where
  | node (tag : String) (attrs : List (String × String)) (text : Option String)
      (children : List MTree)

/-- The element's tag. -/
def MTree.tag : MTree → String
  | .node t _ _ _ => t

/-- The element's attribute dictionary. -/
def MTree.attrs : MTree → List (String × String)
  | .node _ a _ _ => a

/-- The element's children. -/
def MTree.children : MTree → List MTree
  | .node _ _ _ c => c

/-- `element.get(k)`. -/
def MTree.getAttr (t : MTree) (k : String) : Option String :=
  attrGet t.attrs k

/-- `element.set(k, v)`. -/
def MTree.setAttr : MTree → String → String → MTree
  | .node tg a x c, k, v => .node tg (attrSet a k v) x c

/-- Replace the element's children. -/
def MTree.setChildren : MTree → List MTree → MTree
  | .node tg a x _, c => .node tg a x c

mutual
/-- The proper descendants of an element, in document order (the node set
of the `.//...` axis). -/
def descendantsT : MTree → List MTree
  | .node _ _ _ c => descsL c
/-- Descendant-or-self over a child list, in document order. -/
def descsL : List MTree → List MTree
  | [] => []
  | t :: ts => (t :: descendantsT t) ++ descsL ts
end

/-! ## Reference resolution: `DocGetter.read` (getter.py 86-118)

`DocGetter.resolve` and `_get_content` reach outside the pipeline (URI
parsing, the file system); their observable effect on the tree is captured
by a fetch environment: for a `(uri, source-attribute)` key it yields the
relative path that becomes the new `source` (`os.path.relpath(
cache.absPath)`), the joined content string and its line count (set into
the `content` / `contentLines` attributes), and the children of the
re-parsed fragment (`treeParser(content)[:]`). -/

/-- What one successful `resolve` plus re-parse contributes. -/
structure FetchResult where
  newSource : String
  content : String
  lineCount : Nat
  children : List MTree

/-- The fetch environment as a finite table. -/
abbrev DocEnv := List ((String × Option String) × FetchResult)

/-- Environment lookup for a reference's `uri` and `source` attributes. -/
def envFetch (env : DocEnv) (uri : String) (src : Option String) :
    Option FetchResult :=
  (env.find? (fun e => e.1.1 = uri && e.1.2 = src)).map (fun e => e.2)

mutual
/-- `for docInner in markdownInner.findall(".//doc_uri"): docInner.set(
'source', source)` over a grafted subtree. -/
def setSrcT (s : String) : MTree → MTree
  | .node tg a x c =>
    .node tg (if tg = "doc_uri" then attrSet a "source" s else a) x (setSrcL s c)
/-- `setSrcT` over a child list. -/
def setSrcL (s : String) : List MTree → List MTree
  | [] => []
  | t :: ts => setSrcT s t :: setSrcL s ts
end

/-- The proper descendants with `resolved='False'`, i.e. the node set of
`element.findall(".//*[@resolved='False']")`. -/
def unresolvedDescs (t : MTree) : List MTree :=
  (descendantsT t).filter (fun d => d.getAttr "resolved" = some "False")

mutual
/-- One resolution pass of `DocGetter.read` over a descendant-or-self
node: a node carrying `resolved='False'` is resolved (attributes
`contentLines`, `content` and `resolved='True'` set, the fetched subtree's
children grafted after the node's own children, nested `doc_uri` nodes
re-tagged with the new source); the node's original children — which were
in the same `findall` snapshot — are processed too, the grafted ones are
not.  A missing `uri` attribute or a failed fetch is a fatal error. -/
def passT (env : DocEnv) : MTree → Except String MTree
  | .node tg a x c =>
    if attrGet a "resolved" = some "False" then
      match attrGet a "uri" with
      | none => .error "doc_uri element has no uri attribute"
      | some u =>
        match envFetch env u (attrGet a "source") with
        | none => .error "Content for URI not found"
        | some fr =>
          match passL env c with
          | .error e => .error e
          | .ok c' =>
            .ok (.node tg
              (attrSet (attrSet (attrSet a
                  "contentLines" (toString fr.lineCount))
                  "content" fr.content)
                  "resolved" "True")
              x (c' ++ setSrcL fr.newSource fr.children))
    else
      match passL env c with
      | .error e => .error e
      | .ok c' => .ok (.node tg a x c')
/-- `passT` over a child list. -/
def passL (env : DocEnv) : List MTree → Except String (List MTree)
  | [] => .ok []
  | t :: ts =>
    match passT env t with
    | .error e => .error e
    | .ok t' =>
      match passL env ts with
      | .error e => .error e
      | .ok ts' => .ok (t' :: ts')
end

/-- The `while True` loop of `DocGetter.read` for one element: a pass
resolves every node found by `.//*[@resolved='False']` (proper
descendants); when a pass would find zero such nodes the loop breaks and
the element is yielded.  Fuel exhaustion is an explicit error; the claim
theorem shows the rank of an acyclic reference graph bounds the fuel. -/
def readLoop (env : DocEnv) : Nat → MTree → Except String MTree
  | fuel, t =>
    if (unresolvedDescs t).length = 0 then .ok t
    else
      match fuel with
      | 0 => .error "fuel exhausted"
      | f + 1 =>
        match passL env t.children with
        | .error e => .error e
        | .ok c' => readLoop env f (t.setChildren c')

/-! ## Single-line destructuring: `lift_singles` (markdown_tree.py
68-104) -/

mutual
/-- Count of descendant-or-self nodes with `contentLines='1'` (used as
loop fuel: every loop iteration rewrites that attribute on one node). -/
def countCL1T : MTree → Nat
  | .node _ a _ c =>
    (if attrGet a "contentLines" = some "1" then 1 else 0) + countCL1L c
/-- `countCL1T` over a child list. -/
def countCL1L : List MTree → Nat
  | [] => 0
  | t :: ts => countCL1T t + countCL1L ts
end

/-- The `lift_singles` loop body for the found element: no children sets
the attribute to `zero`; several children or a non-`paragraph` single
child is a fatal `NotImplementedError`; a `paragraph` single child is
destructured — its children promoted, the attribute set to `lifted`, and
`liftedSingle='True'` set on `found[0]`, which raises `IndexError` when
the paragraph was empty. -/
def lsActOn : MTree → Except String MTree
  | .node tg a x c =>
    match c with
    | [] => .ok (.node tg (attrSet a "contentLines" "zero") x [])
    | [child] =>
      if child.tag = "paragraph" then
        match child.children with
        | [] => .error "IndexError: list index out of range"
        | g :: gs =>
          .ok (.node tg (attrSet a "contentLines" "lifted") x
            (g.setAttr "liftedSingle" "True" :: gs))
      else .error "Single content line doesn't have expected tag paragraph"
    | _ :: _ :: _ => .error "Single content line but multiple child elements"

mutual
/-- Apply `lsActOn` to the first descendant-or-self node (document order)
with `contentLines='1'` — the node `element.find(".//*[@contentLines=
'1']")` returns — rebuilding the tree around the result. -/
def lsStepT : MTree → Option (Except String MTree)
  | .node tg a x c =>
    if attrGet a "contentLines" = some "1" then some (lsActOn (.node tg a x c))
    else
      match lsStepL c with
      | none => none
      | some (.error e) => some (.error e)
      | some (.ok c') => some (.ok (.node tg a x c'))
/-- `lsStepT` over a child list. -/
def lsStepL : List MTree → Option (Except String (List MTree))
  | [] => none
  | t :: ts =>
    match lsStepT t with
    | some (.ok t') => some (.ok (t' :: ts))
    | some (.error e) => some (.error e)
    | none =>
      match lsStepL ts with
      | some (.ok ts') => some (.ok (t :: ts'))
      | some (.error e) => some (.error e)
      | none => none
end

/-- The `while True` loop of `lift_singles` for one element of the
stream. -/
def lsLoop : Nat → MTree → Except String MTree
  | fuel, t =>
    match lsStepL t.children with
    | none => .ok t
    | some (.error e) => .error e
    | some (.ok c') =>
      match fuel with
      | 0 => .error "fuel exhausted"
      | f + 1 => lsLoop f (.setChildren t c')

/-- `lift_singles` for one element: each loop iteration rewrites the found
node's `contentLines` attribute, so the count of such nodes bounds the
iterations. -/
def liftSingles (t : MTree) : Except String MTree :=
  lsLoop (countCL1L t.children) t

/-! ## Tree splicing: `lift_trees` and `can_contain` (markdown_tree.py
106-231) -/

/-- `can_contain(parentElement, childElement)`: span, marker and `doc_uri`
children are always acceptable; `paragraph`/`header` accept no block;
`list_item` accepts `paragraph` or `list` and rejects `list_item`;
`list` accepts only `list_item`; anything else is the fatal
`NotImplementedError`. -/
def canContain (parent child : MTree) : Except String Bool :=
  if child.getAttr "layout" = some "span" || child.getAttr "layout" = some "marker"
      || (child.getAttr "resolved").isSome then
    .ok true
  else if parent.tag = "paragraph" || parent.tag = "header" then .ok false
  else if parent.tag = "list_item" then
    if child.tag = "paragraph" || child.tag = "list" then .ok true
    else if child.tag = parent.tag then .ok false
    else .error "Don't know if list_item can or cannot contain this child."
  else if parent.tag = "list" then .ok (child.tag = "list_item")
  else .error "Don't know if this parent can or cannot contain this child."

mutual
/-- The path (child-index list) of the first document-order node matched
by `element.find('.//*[@resolved]/../..')`'s inner step: the first proper
descendant carrying a `resolved` attribute that has both a parent and a
grandparent below `element` (path length at least 2; shallower matches
drop out of the ElementTree result, but their descendants remain
candidates). -/
def deepXT (t : MTree) (path : List Nat) : Option (List Nat) :=
  match t with
  | .node _ a _ c =>
    if 2 ≤ path.length && (attrGet a "resolved").isSome then some path
    else deepXL c path 0
/-- `deepXT` over a child list starting at child index `i`. -/
def deepXL : List MTree → List Nat → Nat → Option (List Nat)
  | [], _, _ => none
  | t :: ts, path, i =>
    match deepXT t (path ++ [i]) with
    | some p => some p
    | none => deepXL ts path (i + 1)
end

/-- Subtree at a child-index path. -/
def getAt : MTree → List Nat → Option MTree
  | t, [] => some t
  | .node _ _ _ c, i :: p =>
    match c.get? i with
    | none => none
    | some ci => getAt ci p

mutual
/-- Replace the subtree at a child-index path. -/
def setAt : MTree → List Nat → MTree → MTree
  | _, [], u => u
  | .node tg a x c, i :: p, u => .node tg a x (setAtL c i p u)
/-- `setAt` over a child list. -/
def setAtL : List MTree → Nat → List Nat → MTree → List MTree
  | [], _, _, _ => []
  | t :: ts, 0, p, u => setAt t p u :: ts
  | t :: ts, i + 1, p, u => t :: setAtL ts i p u
end

/-- `ET_copy_attr(source, destination, names)`: copy the named attributes
that are present, in the given order, onto the destination attributes. -/
def copyAttrNames (src : List (String × String)) (names : List String)
    (dest : List (String × String)) : List (String × String) :=
  names.foldl
    (fun d n =>
      match attrGet src n with
      | none => d
      | some v => attrSet d n v) dest

/-- `xml.etree.ElementTree`'s attribute-value escaping. -/
def escAttrChar : Char → List Char
  | '&' => "&amp;".toList
  | '<' => "&lt;".toList
  | '>' => "&gt;".toList
  | '"' => "&quot;".toList
  | '\r' => "&#13;".toList
  | '\n' => "&#10;".toList
  | '\t' => "&#09;".toList
  | c => [c]

/-- Serialize an attribute dictionary as ElementTree does for an empty
element, then apply the `' />'` to `'>'` rewrite `lift_trees` performs on
the stringified start marker. -/
def mkDocMarkerText (attrs : List (String × String)) : String :=
  String.mk
    ("<doc".toList ++
      (attrs.foldl
        (fun acc p =>
          acc ++ [' '] ++ p.1.toList ++ ['=', '"'] ++
            (p.2.toList.foldr (fun c r => escAttrChar c ++ r) []) ++ ['"'])
        []) ++
      ['>'])

/-- The running state of the `for child in docElement` insertion loop of
`lift_trees`: whether insertion still targets the parent, the nodes
inserted into the parent (contiguously at the removed reference's index),
the nodes inserted into the grandparent (contiguously after the parent),
and the start marker not yet inserted. -/
structure SpliceState where
  inParent : Bool
  insP : List MTree
  insG : List MTree
  pendingStart : Option MTree

/-- Insert one node into the current target of a `SpliceState`. -/
def spliceInsert (st : SpliceState) (u : MTree) : SpliceState :=
  if st.inParent then { st with insP := st.insP ++ [u] }
  else { st with insG := st.insG ++ [u] }

/-- Flush the pending start marker into the current target. -/
def spliceFlushStart (st : SpliceState) : SpliceState :=
  match st.pendingStart with
  | none => st
  | some mk => { spliceInsert st mk with pendingStart := none }

/-- The `for child in docElement` loop: the first child the parent cannot
contain switches insertion to the grandparent for it and all later
children; the start marker goes in immediately before the first inserted
child; every inserted child is tagged with `liftedTree`. -/
def spliceChildren (p : MTree) : SpliceState → List MTree → Except String SpliceState
  | st, [] => .ok st
  | st, ch :: rest =>
    match (if st.inParent then canContain p ch else .ok true) with
    | .error e => .error e
    | .ok ok =>
      let st := if st.inParent && !ok then { st with inParent := false } else st
      let st := spliceFlushStart st
      let ch' := ch.setAttr "liftedTree" (if st.inParent then "parent" else "grandparent")
      spliceChildren p (spliceInsert st ch') rest

/-- One iteration of the `lift_trees` loop body, acting on the located
grandparent `g` with parent index `i` and reference index `j`: remove the
reference from its parent, insert its children (and optional markers) into
the parent or, from the first unacceptable child on, into the grandparent
after the parent; move `parent[docIndex:]` into a new `tailParent` node
when insertion moved to the grandparent and that slice is non-empty; and
delete the parent when the reference was its only child and it is now
empty. -/
def spliceBody (markers : Bool) (g : MTree) (i j : Nat) : Except String MTree :=
  match g.children.get? i with
  | none => .error "Child wasn't found by index."
  | some p =>
    match p.children.get? j with
    | none => .error "Child wasn't found by index."
    | some x =>
      let mAttrs := copyAttrNames x.attrs ["source", "uri"] [("layout", "marker")]
      let docStart : Option MTree :=
        if markers then some (.node "doc" mAttrs (some (mkDocMarkerText mAttrs)) [])
        else none
      let docEnd : Option MTree :=
        if markers then some (.node "doc" mAttrs (some "</doc>") []) else none
      let pBefore := p.children.take j
      let pAfter := p.children.drop (j + 1)
      match spliceChildren p
          { inParent := true, insP := [], insG := [], pendingStart := docStart }
          x.children with
      | .error e => .error e
      | .ok st =>
        let st := spliceFlushStart st
        let st :=
          match docEnd with
          | none => st
          | some de => spliceInsert st de
        let pgoing :=
          if st.inParent then (pBefore ++ st.insP ++ pAfter, st.insG)
          else if (st.insP ++ pAfter).isEmpty then (pBefore, st.insG)
          else
            (pBefore,
              st.insG ++
                [MTree.node p.tag (attrSet p.attrs "liftedTree" "tailParent") none
                  (st.insP ++ pAfter)])
        let p' := p.setChildren pgoing.1
        let removeParent := j = 0 && pgoing.1.length = 0
        .ok (g.setChildren
          (g.children.take i ++ (if removeParent then [] else [p']) ++ pgoing.2 ++
            g.children.drop (i + 1)))

mutual
/-- Does the element have a `paragraph` proper descendant? -/
def paraDescT : MTree → Bool
  | .node _ _ _ c => paraDescL c
/-- Is there a `paragraph` in the descendant-or-self set of a child
list? -/
def paraDescL : List MTree → Bool
  | [] => false
  | t :: ts => (t.tag = "paragraph" || paraDescT t) || paraDescL ts
end

mutual
/-- `element.find(".//paragraph//paragraph") is not None`: some proper
descendant is a `paragraph` with a `paragraph` proper descendant. -/
def nestedParaT : MTree → Bool
  | .node _ _ _ c => nestedParaL c
/-- `nestedParaT` over a child list (descendant-or-self). -/
def nestedParaL : List MTree → Bool
  | [] => false
  | t :: ts => ((t.tag = "paragraph" && paraDescT t) || nestedParaT t) || nestedParaL ts
end

mutual
/-- Count of descendant-or-self nodes carrying a `resolved` attribute
(used as loop fuel for `lift_trees`). -/
def countResT : MTree → Nat
  | .node _ a _ c => (if (attrGet a "resolved").isSome then 1 else 0) + countResL c
/-- `countResT` over a child list. -/
def countResL : List MTree → Nat
  | [] => 0
  | t :: ts => countResT t + countResL ts
end

/-- The `while True` loop of `lift_trees` for one element, followed by the
post-splice nested-paragraph assertion. -/
def liftTreesLoop (markers : Bool) : Nat → MTree → Except String MTree
  | fuel, t =>
    match deepXL t.children [] 0 with
    | none => if nestedParaT t then .error "Nested paragraph" else .ok t
    | some path =>
      match fuel with
      | 0 => .error "fuel exhausted"
      | f + 1 =>
        match path.reverse with
        | j :: i :: gpRev =>
          match getAt t gpRev.reverse with
          | none => .error "Grandparent but no parent"
          | some g =>
            match spliceBody markers g i j with
            | .error e => .error e
            | .ok g' => liftTreesLoop markers f (setAt t gpRev.reverse g')
        | _ => .error "Grandparent but no parent"

/-- `lift_trees(element, leaveMarkers)` for one element of the stream. -/
def liftTrees (markers : Bool) (t : MTree) : Except String MTree :=
  liftTreesLoop markers (countResT t + 1) t

/-- Block-kind elements in the claims' vocabulary: the tags rendering
block-level constructs (`PARAGRAPH, HEADER, LIST, LIST_ITEM, CODE_BLOCK,
REFERENCE`). -/
def isBlockTag (c : MTree) : Bool :=
  c.tag = "paragraph" || c.tag = "header" || c.tag = "list" ||
    c.tag = "list_item" || c.tag = "block_code" || c.tag = "doc_uri"

/-- The resolution-key check used to state acyclicity for C3: the node's
`uri` attribute exists, its `(uri, source)` key is in the environment, and
the key's rank is below the bound. -/
def keyOK (env : DocEnv) (rank : String → Option String → Nat) (b : Nat)
    (uriOpt srcOpt : Option String) : Bool :=
  match uriOpt with
  | none => false
  | some u => (envFetch env u srcOpt).isSome && decide (rank u srcOpt < b)

/-- Every unresolved node in the forest resolves and has rank below the
bound. -/
def UnresOK (env : DocEnv) (rank : String → Option String → Nat) (b : Nat)
    (ts : List MTree) : Prop :=
  ∀ d ∈ descsL ts, d.getAttr "resolved" = some "False" →
    keyOK env rank b (d.getAttr "uri") (d.getAttr "source") = true

/-- The fetch environment is rank-decreasing: every unresolved node inside
a fetched fragment is a `doc_uri` (so re-sourcing applies to it), its key
under the fragment's new source resolves, and its rank is strictly below
the fetched key's rank.  This is the shape of an acyclic reference graph
in which every chain reaches content. -/
def EnvOK (env : DocEnv) (rank : String → Option String → Nat) : Prop :=
  ∀ e ∈ env, ∀ d ∈ descsL e.2.children, d.getAttr "resolved" = some "False" →
    d.tag = "doc_uri" ∧
    keyOK env rank (rank e.1.1 e.1.2) (d.getAttr "uri") (some e.2.newSource) = true

/-! # Theorems -/

/-! ## C8: content fragment loading -/

/-- C8: The fragment body is the lines between its header and the next
single-`#` line or end of file — but the final end-of-line strip is only
performed when a following header terminates the fragment.  For the file
`# a\nbody\n` the single EOF-terminated fragment keeps the `\n` on its
final body line, contradicting the claim (and the `rstrip` applied to the
header-terminated fragment `a` of the second file). -/
theorem c8_cacheRead_eof_eol_kept :
    cacheRead "docco.md" ["# a\n".toList, "body\n".toList] =
      [⟨"docco.md", "a".toList, ["body\n".toList]⟩] ∧
    cacheRead "docco.md"
        ["# a\n".toList, "body\n".toList, "# b\n".toList, "x\n".toList] =
      [⟨"docco.md", "a".toList, ["body".toList]⟩,
       ⟨"docco.md", "b".toList, ["x\n".toList]⟩] := by
  constructor
  · rfl
  · rfl

/-! ## C1: end of input while inside a comment -/

/-- The buffered lines of an open segmentation state. -/
theorem commentBlocksGo_flatten :
    ∀ (items : List TItem) (st : Option (Nat × List TItem)),
      flattenCOut (commentBlocksGo st items) =
        (match st with | none => [] | some (_, buf) => buf) ++ items := by
  intro items
  induction items with
  | nil =>
    intro st
    cases st with
    | none => rfl
    | some p => cases p; simp [commentBlocksGo, flattenCOut]
  | cons it rest ih =>
    intro st
    cases it with
    | lineE num tx =>
      cases st with
      | none => simp [commentBlocksGo, flattenCOut, ih]
      | some p => cases p; simp [commentBlocksGo, flattenCOut, ih]
    | partE a =>
      by_cases h : a.part = CPart.finish
      · cases st with
        | none => simp [commentBlocksGo, h, flattenCOut, ih]
        | some p => cases p; simp [commentBlocksGo, h, flattenCOut, ih]
      · cases st with
        | none => simp [commentBlocksGo, h, flattenCOut, ih]
        | some p => cases p; simp [commentBlocksGo, h, flattenCOut, ih]

/-- The legacy grouping loop drops nothing either. -/
theorem commentBlockRead_flatten :
    ∀ (items : List LItem) (st : Option (List LItem)),
      flattenLOut (commentBlockRead (fun b => b) st items) =
        (match st with | none => [] | some buf => buf) ++ items := by
  intro items
  induction items with
  | nil =>
    intro st
    cases st with
    | none => rfl
    | some buf => simp [commentBlockRead, flattenLOut]
  | cons it rest ih =>
    intro st
    match h : lItemType it with
    | some ty =>
      by_cases hf : ty = CPart.finish
      · cases st with
        | none => simp [commentBlockRead, h, hf, flattenLOut, ih]
        | some buf => simp [commentBlockRead, h, hf, flattenLOut, ih]
      · cases st with
        | none => simp [commentBlockRead, h, hf, flattenLOut, ih]
        | some buf => simp [commentBlockRead, h, hf, flattenLOut, ih]
    | none =>
      cases st with
      | none => simp [commentBlockRead, h, flattenLOut, ih]
      | some buf => simp [commentBlockRead, h, flattenLOut, ih]

/-- C1 (amended): at end of input while inside a comment, neither
segmentation path raises an unterminated-comment error: the tree-based
`comment_blocks` and the legacy `CommentBlock.read` both flush the
buffered partial block (`yield commentElement` / `yield cls(comment)`),
and neither drops or alters any buffered item on any stream. -/
theorem c1_both_paths_flush :
    (∀ titems : List TItem, flattenCOut (commentBlocksTree titems) = titems) ∧
    (∀ litems : List LItem,
      flattenLOut (commentBlockRead (fun b => b) none litems) = litems) ∧
    (∀ (n : Nat) (buf : List TItem),
      commentBlocksGo (some (n, buf)) [] = [.commentO n buf]) ∧
    (∀ buf : List LItem,
      commentBlockRead (fun b => b) (some buf) [] = [.blockO buf]) := by
  refine ⟨fun titems => ?_, fun litems => ?_, fun n buf => rfl, fun buf => rfl⟩
  · simpa using commentBlocksGo_flatten titems none
  · simpa using commentBlockRead_flatten litems none

/-- C1 (counterexample): a stream holding a START with no FINISH — here
the single source line `/** x\n` — is not a fatal error on the tree-based
path: `line_star_slash` analyses it and `comment_blocks` flushes the
buffered partial block as an ordinary comment element. -/
theorem c1_counterexample_flush_not_error :
    lineStarSlash (lineElements ["/** x\n".toList]) =
      .ok [.partE ⟨1, .start, none, some "/**".toList, some " ".toList,
        "x".toList, some "\n".toList⟩] ∧
    commentBlocksTree
        [.partE ⟨1, .start, none, some "/**".toList, some " ".toList,
          "x".toList, some "\n".toList⟩] =
      [.commentO 1 [.partE ⟨1, .start, none, some "/**".toList, some " ".toList,
        "x".toList, some "\n".toList⟩]] := by
  exact ⟨rfl, rfl⟩

/-! ## C2: the containment invariant after tree splicing -/

mutual
/-- `paraDescT` detects exactly a `paragraph` proper descendant. -/
theorem paraDescT_iff : ∀ t : MTree,
    paraDescT t = true ↔ ∃ q ∈ descendantsT t, q.tag = "paragraph"
  | .node tg a x c => by
    simpa [paraDescT, descendantsT] using paraDescL_iff c
/-- `paraDescL` detects exactly a `paragraph` in the descendant-or-self
set of a child list. -/
theorem paraDescL_iff : ∀ ts : List MTree,
    paraDescL ts = true ↔ ∃ q ∈ descsL ts, q.tag = "paragraph"
  | [] => by simp [paraDescL, descsL]
  | t :: ts => by
    have h1 := paraDescT_iff t
    have h2 := paraDescL_iff ts
    simp only [paraDescL, descsL, Bool.or_eq_true, decide_eq_true_eq, h1, h2]
    constructor
    · rintro ((htag | ⟨q, hq, hqt⟩) | ⟨q, hq, hqt⟩)
      · exact ⟨t, by simp, htag⟩
      · exact ⟨q, by simp [hq], hqt⟩
      · exact ⟨q, by simp [hq], hqt⟩
    · rintro ⟨q, hq, hqt⟩
      rcases List.mem_append.mp hq with hq | hq
      · rcases List.mem_cons.mp hq with rfl | hq
        · exact Or.inl (Or.inl hqt)
        · exact Or.inl (Or.inr ⟨q, hq, hqt⟩)
      · exact Or.inr ⟨q, hq, hqt⟩
end

mutual
/-- `nestedParaT` detects exactly a `paragraph` proper descendant with a
`paragraph` proper descendant of its own. -/
theorem nestedParaT_iff : ∀ t : MTree,
    nestedParaT t = true ↔
      ∃ p ∈ descendantsT t, p.tag = "paragraph" ∧ paraDescT p = true
  | .node tg a x c => by
    simpa [nestedParaT, descendantsT] using nestedParaL_iff c
/-- `nestedParaL` over a child list. -/
theorem nestedParaL_iff : ∀ ts : List MTree,
    nestedParaL ts = true ↔
      ∃ p ∈ descsL ts, p.tag = "paragraph" ∧ paraDescT p = true
  | [] => by simp [nestedParaL, descsL]
  | t :: ts => by
    have h1 := nestedParaT_iff t
    have h2 := nestedParaL_iff ts
    simp only [nestedParaL, Bool.or_eq_true, Bool.and_eq_true, decide_eq_true_eq,
      h1, h2, descsL]
    constructor
    · rintro ((⟨htag, hdesc⟩ | ⟨p, hp, hpt, hpd⟩) | ⟨p, hp, hpt, hpd⟩)
      · exact ⟨t, by simp, htag, hdesc⟩
      · exact ⟨p, by simp [hp], hpt, hpd⟩
      · exact ⟨p, by simp [hp], hpt, hpd⟩
    · rintro ⟨p, hp, hpt, hpd⟩
      rcases List.mem_append.mp hp with hp | hp
      · rcases List.mem_cons.mp hp with rfl | hp
        · exact Or.inl (Or.inl ⟨hpt, hpd⟩)
        · exact Or.inl (Or.inr ⟨p, hp, hpt, hpd⟩)
      · exact Or.inr ⟨p, hp, hpt, hpd⟩
end

/-- An `ok` result of the `lift_trees` loop has passed the post-splice
nested-paragraph assertion. -/
theorem liftTreesLoop_ok_no_nested (markers : Bool) :
    ∀ (fuel : Nat) (t t' : MTree),
      liftTreesLoop markers fuel t = .ok t' → nestedParaT t' = false := by
  intro fuel
  induction fuel with
  | zero =>
    intro t t' h
    rw [liftTreesLoop] at h
    split at h
    · split at h
      · exact Except.noConfusion h
      · rename_i hn
        cases h
        simpa using hn
    · exact Except.noConfusion h
  | succ f ih =>
    intro t t' h
    rw [liftTreesLoop] at h
    split at h
    · split at h
      · exact Except.noConfusion h
      · rename_i hn
        cases h
        simpa using hn
    · split at h
      · rename_i heq
        exact absurd heq (by omega)
      · rename_i n heq
        obtain rfl : n = f := by omega
        split at h
        · split at h
          · exact Except.noConfusion h
          · split at h
            · exact Except.noConfusion h
            · exact ih _ _ h
        · exact Except.noConfusion h

/-- C2 (amended): every document tree that completes tree splicing
(`lift_trees`) without an error satisfies the checked part of the
containment invariant: no `PARAGRAPH` node (below the stream element's
root) has a `PARAGRAPH` descendant.  (The no-block-descendant part of the
claim for `PARAGRAPH`/`HEADER` is not established by the code — see the
counterexample.) -/
theorem c2_no_nested_paragraph (markers : Bool) (t t' : MTree)
    (h : liftTrees markers t = .ok t') :
    ∀ p ∈ descendantsT t', p.tag = "paragraph" →
      ∀ q ∈ descendantsT p, q.tag ≠ "paragraph" := by
  intro p hp hptag q hq hqtag
  have hnest : nestedParaT t' = false :=
    liftTreesLoop_ok_no_nested markers (countResT t + 1) t t' h
  have : nestedParaT t' = true := by
    rcases t' with ⟨tg, a, x, c⟩
    rw [nestedParaT_iff]
    exact ⟨p, hp, hptag, (paraDescT_iff p).mpr ⟨q, hq, hqtag⟩⟩
  rw [this] at hnest
  exact Bool.noConfusion hnest

/-- C2 (witness): a paragraph holding a resolved reference with a span
child is spliced in place, and the amended invariant holds of the
result. -/
theorem c2_no_nested_paragraph_witness :
    ((descendantsT
        (.node "comment" [("source", "s.h")] none
          [.node "markdown" [] none
            [.node "paragraph" [("newlines", "2")] none
              [.node "text" [("layout", "span"), ("liftedTree", "parent")]
                (some "hi") []]]])).all (fun p =>
      (!decide (p.tag = "paragraph")) ||
        (descendantsT p).all (fun q => !decide (q.tag = "paragraph"))))
      = true := by
  have h :=
  c2_no_nested_paragraph false
    (.node "comment" [("source", "s.h")] none
      [.node "markdown" [] none
        [.node "paragraph" [("newlines", "2")] none
          [.node "doc_uri" [("resolved", "True"), ("uri", "doc://#x")] none
            [.node "text" [("layout", "span")] (some "hi") []]]]])
    (.node "comment" [("source", "s.h")] none
      [.node "markdown" [] none
        [.node "paragraph" [("newlines", "2")] none
          [.node "text" [("layout", "span"), ("liftedTree", "parent")]
            (some "hi") []]]])
    rfl
  rw [List.all_eq_true]
  intro p hp
  by_cases hpt : p.tag = "paragraph"
  · have h2 := h p hp hpt
    simp only [hpt, decide_True, Bool.not_true, Bool.false_or,
      List.all_eq_true]
    intro q hq
    simpa using h2 q hq
  · simp [hpt]

/-- C2 (counterexample): a document tree whose `header` directly holds a
`list` — a block-kind child — completes `lift_trees` untouched and without
any error (there is no reference to splice, and the only post-splice check
is the nested-paragraph assertion), so the claimed full containment
invariant does not hold of the result. -/
theorem c2_counterexample_header_block_descendant :
    liftTrees false
        (.node "comment" [] none
          [.node "markdown" [] none
            [.node "header" [("level", "1")] none
              [.node "list" [("ordered", "False")] none []]]]) =
      .ok (.node "comment" [] none
          [.node "markdown" [] none
            [.node "header" [("level", "1")] none
              [.node "list" [("ordered", "False")] none []]]]) ∧
    ∃ h ∈ descendantsT
        (.node "comment" [] none
          [.node "markdown" [] none
            [.node "header" [("level", "1")] none
              [.node "list" [("ordered", "False")] none []]]]),
      h.tag = "header" ∧ ∃ b ∈ descendantsT h, isBlockTag b = true := by
  refine ⟨rfl, ?_⟩
  refine ⟨.node "header" [("level", "1")] none
    [.node "list" [("ordered", "False")] none []], by simp [descendantsT, descsL], rfl, ?_⟩
  exact ⟨.node "list" [("ordered", "False")] none [], by simp [descendantsT, descsL], rfl⟩

/-! ## C5 and C9: at-command recognition and rewriting -/

/-- A list whose head is not a space is untouched by `dropWhile` on
spaces. -/
theorem dropWhile_space_head (rest : List Char)
    (h : ∀ c, rest.head? = some c → ¬c = ' ') :
    rest.dropWhile (fun c => c = ' ') = rest := by
  cases rest with
  | nil => rfl
  | cons c t =>
    have hc := h c rfl
    simp [List.dropWhile_cons, hc]

/-- `dropWhile` on spaces consumes exactly a leading space run. -/
theorem dropWhile_spaces_eval (k : Nat) (rest : List Char)
    (h : ∀ c, rest.head? = some c → ¬c = ' ') :
    (spaces k ++ rest).dropWhile (fun c => c = ' ') = rest := by
  induction k with
  | zero => simpa [spaces] using dropWhile_space_head rest h
  | succ i ih => simpa [spaces, List.replicate_succ] using ih

/-- A space run of length `k + 1` followed by a non-space satisfies the
` +` step. -/
theorem dropSpaces1_eval (k : Nat) (rest : List Char)
    (h : ∀ c, rest.head? = some c → ¬c = ' ') :
    dropSpaces1 (spaces (k + 1) ++ rest) = some rest := by
  have hsp : spaces (k + 1) ++ rest = ' ' :: (spaces k ++ rest) := by
    simp [spaces, List.replicate_succ]
  rw [hsp]
  simp [dropSpaces1, dropWhile_spaces_eval k rest h]

/-- `takeWhile`/`dropWhile` on word characters split exactly at the end of
an all-word run followed by a non-word head. -/
theorem word_take_drop (n tail : List Char)
    (hw : ∀ c ∈ n, isWordChar c = true)
    (ht : ∀ c, tail.head? = some c → isWordChar c = false) :
    (n ++ tail).takeWhile isWordChar = n ∧ (n ++ tail).dropWhile isWordChar = tail := by
  induction n with
  | nil =>
    constructor
    · cases tail with
      | nil => rfl
      | cons c t => simp [List.takeWhile_cons, ht c rfl]
    · cases tail with
      | nil => rfl
      | cons c t => simp [List.dropWhile_cons, ht c rfl]
  | cons c cs ih =>
    have hc : isWordChar c = true := hw c (by simp)
    have ih' := ih (fun d hd => hw d (by simp [hd]))
    simp [List.takeWhile_cons, List.dropWhile_cons, hc, ih'.1, ih'.2]

/-- The ` +(?P<name>\w+) *` step on a space run, a word-character name and
a tail that stops both the name and the trailing-space munch. -/
theorem dropSpacesName_eval (k m : Nat) (n rest : List Char) (hn : n ≠ [])
    (hw : ∀ c ∈ n, isWordChar c = true)
    (hrs : ∀ c, rest.head? = some c → ¬c = ' ')
    (hrw : ∀ c, (spaces m ++ rest).head? = some c → isWordChar c = false) :
    dropSpacesName (spaces (k + 1) ++ (n ++ (spaces m ++ rest))) = some (n, rest) := by
  have hsp : spaces (k + 1) ++ (n ++ (spaces m ++ rest)) =
      ' ' :: (spaces k ++ (n ++ (spaces m ++ rest))) := by
    simp [spaces, List.replicate_succ]
  have hhead : ∀ c, (n ++ (spaces m ++ rest)).head? = some c → ¬c = ' ' := by
    intro c hc heq
    cases n with
    | nil => exact absurd rfl hn
    | cons a as =>
      simp at hc
      have := hw a (by simp)
      rw [hc, heq] at this
      exact Bool.noConfusion this
  obtain ⟨htw, hdw⟩ := word_take_drop n (spaces m ++ rest) hw hrw
  rw [hsp]
  show (match (' ' :: (spaces k ++ (n ++ (spaces m ++ rest))) : List Char) with
    | ' ' :: r =>
      let r' := r.dropWhile (fun c => c = ' ')
      let nm := r'.takeWhile isWordChar
      if nm = [] then none
      else some (nm, (r'.dropWhile isWordChar).dropWhile (fun c => c = ' '))
    | _ => none) = some (n, rest)
  simp only [dropWhile_spaces_eval k _ hhead, htw, hdw, if_neg hn,
    dropWhile_spaces_eval m rest hrs]

/-- `atCommand.match` on `@param <name> …`. -/
theorem atMatch_param (k m : Nat) (n rest : List Char) (hn : n ≠ [])
    (hw : ∀ c ∈ n, isWordChar c = true)
    (hrs : ∀ c, rest.head? = some c → ¬c = ' ')
    (hrw : ∀ c, (spaces m ++ rest).head? = some c → isWordChar c = false) :
    atCommandMatch ("@param".toList ++ (spaces (k + 1) ++ (n ++ (spaces m ++ rest)))) =
      some ⟨.parameter, "param".toList, n, rest⟩ := by
  have hd := dropSpacesName_eval k m n rest hn hw hrs hrw
  rw [show ("@param".toList ++ (spaces (k + 1) ++ (n ++ (spaces m ++ rest)))) =
    '@' :: 'p' :: 'a' :: 'r' :: 'a' :: 'm' :: (' ' :: (spaces k ++ (n ++ (spaces m ++ rest)))) from rfl]
  rw [show (spaces (k + 1) ++ (n ++ (spaces m ++ rest))) =
    ' ' :: (spaces k ++ (n ++ (spaces m ++ rest))) from rfl] at hd
  simp only [atCommandMatch, atTryDrop, atTryReturn, atTryCapitalise, atTryParameter,
    atTryIgnore, dropLit, hd, reduceIte]
  rfl

/-- `atCommand.match` on `@parameter <name> …`: the same capture as
`@param`. -/
theorem atMatch_parameter (k m : Nat) (n rest : List Char) (hn : n ≠ [])
    (hw : ∀ c ∈ n, isWordChar c = true)
    (hrs : ∀ c, rest.head? = some c → ¬c = ' ')
    (hrw : ∀ c, (spaces m ++ rest).head? = some c → isWordChar c = false) :
    atCommandMatch ("@parameter".toList ++ (spaces (k + 1) ++ (n ++ (spaces m ++ rest)))) =
      some ⟨.parameter, "param".toList, n, rest⟩ := by
  have hd := dropSpacesName_eval k m n rest hn hw hrs hrw
  rw [show ("@parameter".toList ++ (spaces (k + 1) ++ (n ++ (spaces m ++ rest)))) =
    '@' :: 'p' :: 'a' :: 'r' :: 'a' :: 'm' :: 'e' :: 't' :: 'e' :: 'r' ::
      (' ' :: (spaces k ++ (n ++ (spaces m ++ rest)))) from rfl]
  rw [show (spaces (k + 1) ++ (n ++ (spaces m ++ rest))) =
    ' ' :: (spaces k ++ (n ++ (spaces m ++ rest))) from rfl] at hd
  simp only [atCommandMatch, atTryDrop, atTryReturn, atTryCapitalise, atTryParameter,
    atTryIgnore, dropLit, hd, reduceIte]
  rfl

/-- `atCommand.match` on `@return …`. -/
theorem atMatch_return (k : Nat) (rest : List Char)
    (hrs : ∀ c, rest.head? = some c → ¬c = ' ') :
    atCommandMatch ("@return".toList ++ (spaces (k + 1) ++ rest)) =
      some ⟨.ret, "return".toList, [], rest⟩ := by
  have hd := dropSpaces1_eval k rest hrs
  rw [show ("@return".toList ++ (spaces (k + 1) ++ rest)) =
    '@' :: 'r' :: 'e' :: 't' :: 'u' :: 'r' :: 'n' :: (' ' :: (spaces k ++ rest)) from rfl]
  rw [show (spaces (k + 1) ++ rest) = ' ' :: (spaces k ++ rest) from rfl] at hd
  simp only [atCommandMatch, atTryDrop, atTryReturn, atTryCapitalise, atTryParameter,
    atTryIgnore, dropLit, hd, reduceIte]
  rfl

/-- `atCommand.match` on `@returns …`: the captured value is still
`return`. -/
theorem atMatch_returns (k : Nat) (rest : List Char)
    (hrs : ∀ c, rest.head? = some c → ¬c = ' ') :
    atCommandMatch ("@returns".toList ++ (spaces (k + 1) ++ rest)) =
      some ⟨.ret, "return".toList, [], rest⟩ := by
  have hd := dropSpaces1_eval k rest hrs
  rw [show ("@returns".toList ++ (spaces (k + 1) ++ rest)) =
    '@' :: 'r' :: 'e' :: 't' :: 'u' :: 'r' :: 'n' :: 's' :: (' ' :: (spaces k ++ rest)) from rfl]
  rw [show (spaces (k + 1) ++ rest) = ' ' :: (spaces k ++ rest) from rfl] at hd
  simp only [atCommandMatch, atTryDrop, atTryReturn, atTryCapitalise, atTryParameter,
    atTryIgnore, dropLit, hd, reduceIte]
  rfl

/-- `atCommand.match` on `@version …`. -/
theorem atMatch_version (k : Nat) (rest : List Char)
    (hrs : ∀ c, rest.head? = some c → ¬c = ' ') :
    atCommandMatch ("@version".toList ++ (spaces (k + 1) ++ rest)) =
      some ⟨.capitalise, "version".toList, [], rest⟩ := by
  have hd := dropSpaces1_eval k rest hrs
  rw [show ("@version".toList ++ (spaces (k + 1) ++ rest)) =
    '@' :: 'v' :: 'e' :: 'r' :: 's' :: 'i' :: 'o' :: 'n' :: (' ' :: (spaces k ++ rest)) from rfl]
  rw [show (spaces (k + 1) ++ rest) = ' ' :: (spaces k ++ rest) from rfl] at hd
  simp only [atCommandMatch, atTryDrop, atTryReturn, atTryCapitalise, atTryParameter,
    atTryIgnore, dropLit, hd, reduceIte]
  rfl

/-- `atCommand.match` on `@brief …`. -/
theorem atMatch_brief (k : Nat) (rest : List Char)
    (hrs : ∀ c, rest.head? = some c → ¬c = ' ') :
    atCommandMatch ("@brief".toList ++ (spaces (k + 1) ++ rest)) =
      some ⟨.drop, "brief".toList, [], rest⟩ := by
  have hd := dropSpaces1_eval k rest hrs
  rw [show ("@brief".toList ++ (spaces (k + 1) ++ rest)) =
    '@' :: 'b' :: 'r' :: 'i' :: 'e' :: 'f' :: (' ' :: (spaces k ++ rest)) from rfl]
  rw [show (spaces (k + 1) ++ rest) = ' ' :: (spaces k ++ rest) from rfl] at hd
  simp only [atCommandMatch, atTryDrop, atTryReturn, atTryCapitalise, atTryParameter,
    atTryIgnore, dropLit, hd, reduceIte]
  rfl

/-- `atCommand.match` on `@description …`. -/
theorem atMatch_description (k : Nat) (rest : List Char)
    (hrs : ∀ c, rest.head? = some c → ¬c = ' ') :
    atCommandMatch ("@description".toList ++ (spaces (k + 1) ++ rest)) =
      some ⟨.drop, "description".toList, [], rest⟩ := by
  have hd := dropSpaces1_eval k rest hrs
  rw [show ("@description".toList ++ (spaces (k + 1) ++ rest)) =
    '@' :: 'd' :: 'e' :: 's' :: 'c' :: 'r' :: 'i' :: 'p' :: 't' :: 'i' :: 'o' :: 'n' ::
      (' ' :: (spaces k ++ rest)) from rfl]
  rw [show (spaces (k + 1) ++ rest) = ' ' :: (spaces k ++ rest) from rfl] at hd
  simp only [atCommandMatch, atTryDrop, atTryReturn, atTryCapitalise, atTryParameter,
    atTryIgnore, dropLit, hd, reduceIte]
  rfl

/-- `atCommand.match` on `@details …`. -/
theorem atMatch_details (k : Nat) (rest : List Char)
    (hrs : ∀ c, rest.head? = some c → ¬c = ' ') :
    atCommandMatch ("@details".toList ++ (spaces (k + 1) ++ rest)) =
      some ⟨.drop, "details".toList, [], rest⟩ := by
  have hd := dropSpaces1_eval k rest hrs
  rw [show ("@details".toList ++ (spaces (k + 1) ++ rest)) =
    '@' :: 'd' :: 'e' :: 't' :: 'a' :: 'i' :: 'l' :: 's' :: (' ' :: (spaces k ++ rest)) from rfl]
  rw [show (spaces (k + 1) ++ rest) = ' ' :: (spaces k ++ rest) from rfl] at hd
  simp only [atCommandMatch, atTryDrop, atTryReturn, atTryCapitalise, atTryParameter,
    atTryIgnore, dropLit, hd, reduceIte]
  rfl

/-- `atCommand.match` on `@file …`. -/
theorem atMatch_file (k : Nat) (rest : List Char)
    (hrs : ∀ c, rest.head? = some c → ¬c = ' ') :
    atCommandMatch ("@file".toList ++ (spaces (k + 1) ++ rest)) =
      some ⟨.ignore, "file".toList, [], rest⟩ := by
  have hd := dropSpaces1_eval k rest hrs
  rw [show ("@file".toList ++ (spaces (k + 1) ++ rest)) =
    '@' :: 'f' :: 'i' :: 'l' :: 'e' :: (' ' :: (spaces k ++ rest)) from rfl]
  rw [show (spaces (k + 1) ++ rest) = ' ' :: (spaces k ++ rest) from rfl] at hd
  simp only [atCommandMatch, atTryDrop, atTryReturn, atTryCapitalise, atTryParameter,
    atTryIgnore, dropLit, hd, reduceIte]
  rfl

/-- Assembly of `_at_command_hanging` for a recognized, rewritten
at-command starting right after the hanging offset. -/
theorem atCH_assemble (pre cmd : List Char) (m : AtMatch) (swift : Bool)
    (pfx : List Char) (hm : atCommandMatch cmd = some m)
    (hp : atRewriteHead m swift = some pfx) :
    atCommandHanging (pre ++ cmd) pre.length swift =
      { text := pre ++ (pfx ++ m.rest), hanging := pre.length + pfx.length,
        warned := false, headAttr := some pfx } := by
  simp only [atCommandHanging, List.drop_left, List.take_left, hm, hp,
    List.append_assoc]

/-- Convert a checked head condition into the pointwise form that the
matcher evaluation lemmas use. -/
theorem head_all_not_space (rest : List Char)
    (h : rest.head?.all (fun c => !(c = ' ')) = true) :
    ∀ c, rest.head? = some c → ¬c = ' ' := by
  intro c hc
  cases rest with
  | nil => simp at hc
  | cons a t =>
    simp at hc
    subst hc
    simpa [Option.all] using h

/-- Pointwise form of a checked non-word head condition. -/
theorem head_all_not_word (l : List Char)
    (h : l.head?.all (fun c => !(isWordChar c)) = true) :
    ∀ c, l.head? = some c → isWordChar c = false := by
  intro c hc
  cases l with
  | nil => simp at hc
  | cons a t =>
    simp at hc
    subst hc
    simpa [Option.all] using h

/-- C5: for a paragraph's first text run starting with a recognized
at-command (the run is `pre ++ command`, the `hanging` attribute the
length of `pre`), the rewritten prefix recorded into `atPrefix` (and
spliced into the element's text) follows the claimed table: for the
Doxygen-like convention `@<keyword> `, the parameter form appending the
captured name and a single trailing space; for the Swift-like convention
drop → empty, return/returns → `- Returns: `, version → `- Version: `,
param/parameter name → `- Parameter <name>: `. -/
theorem c5_at_command_rewrite :
    ∀ (pre rest n : List Char) (k m : Nat),
      rest.head?.all (fun c => !(c = ' ')) = true →
      (((atCommandHanging (pre ++ ("@return".toList ++ (spaces (k + 1) ++ rest)))
            pre.length false).headAttr = some "@return ".toList ∧
        (atCommandHanging (pre ++ ("@returns".toList ++ (spaces (k + 1) ++ rest)))
            pre.length false).headAttr = some "@return ".toList ∧
        (atCommandHanging (pre ++ ("@version".toList ++ (spaces (k + 1) ++ rest)))
            pre.length false).headAttr = some "@version ".toList ∧
        (atCommandHanging (pre ++ ("@brief".toList ++ (spaces (k + 1) ++ rest)))
            pre.length false).headAttr = some "@brief ".toList ∧
        (atCommandHanging (pre ++ ("@description".toList ++ (spaces (k + 1) ++ rest)))
            pre.length false).headAttr = some "@description ".toList ∧
        (atCommandHanging (pre ++ ("@details".toList ++ (spaces (k + 1) ++ rest)))
            pre.length false).headAttr = some "@details ".toList) ∧
       ((atCommandHanging (pre ++ ("@return".toList ++ (spaces (k + 1) ++ rest)))
            pre.length true).headAttr = some "- Returns: ".toList ∧
        (atCommandHanging (pre ++ ("@returns".toList ++ (spaces (k + 1) ++ rest)))
            pre.length true).headAttr = some "- Returns: ".toList ∧
        (atCommandHanging (pre ++ ("@version".toList ++ (spaces (k + 1) ++ rest)))
            pre.length true).headAttr = some "- Version: ".toList ∧
        (atCommandHanging (pre ++ ("@brief".toList ++ (spaces (k + 1) ++ rest)))
            pre.length true).headAttr = some [] ∧
        (atCommandHanging (pre ++ ("@description".toList ++ (spaces (k + 1) ++ rest)))
            pre.length true).headAttr = some [] ∧
        (atCommandHanging (pre ++ ("@details".toList ++ (spaces (k + 1) ++ rest)))
            pre.length true).headAttr = some []) ∧
       (n.all isWordChar = true → n ≠ [] →
        (spaces m ++ rest).head?.all (fun c => !(isWordChar c)) = true →
        ((atCommandHanging
            (pre ++ ("@param".toList ++ (spaces (k + 1) ++ (n ++ (spaces m ++ rest)))))
            pre.length false).headAttr = some ("@param ".toList ++ (n ++ [' '])) ∧
         (atCommandHanging
            (pre ++ ("@param".toList ++ (spaces (k + 1) ++ (n ++ (spaces m ++ rest)))))
            pre.length false).text =
              pre ++ ("@param ".toList ++ (n ++ (' ' :: rest))) ∧
         (atCommandHanging
            (pre ++ ("@parameter".toList ++ (spaces (k + 1) ++ (n ++ (spaces m ++ rest)))))
            pre.length false).headAttr = some ("@param ".toList ++ (n ++ [' '])) ∧
         (atCommandHanging
            (pre ++ ("@param".toList ++ (spaces (k + 1) ++ (n ++ (spaces m ++ rest)))))
            pre.length true).headAttr =
              some ("- Parameter ".toList ++ (n ++ [':', ' '])) ∧
         (atCommandHanging
            (pre ++ ("@param".toList ++ (spaces (k + 1) ++ (n ++ (spaces m ++ rest)))))
            pre.length true).text =
              pre ++ ("- Parameter ".toList ++ (n ++ (':' :: ' ' :: rest))) ∧
         (atCommandHanging
            (pre ++ ("@parameter".toList ++ (spaces (k + 1) ++ (n ++ (spaces m ++ rest)))))
            pre.length true).headAttr =
              some ("- Parameter ".toList ++ (n ++ [':', ' ']))))) := by
  intro pre rest n k m hA
  have hrs := head_all_not_space rest hA
  refine ⟨⟨?_, ?_, ?_, ?_, ?_, ?_⟩, ⟨?_, ?_, ?_, ?_, ?_, ?_⟩, ?_⟩
  · rw [atCH_assemble pre _ ⟨.ret, "return".toList, [], rest⟩ false "@return ".toList
      (atMatch_return k rest hrs) rfl]
  · rw [atCH_assemble pre _ ⟨.ret, "return".toList, [], rest⟩ false "@return ".toList
      (atMatch_returns k rest hrs) rfl]
  · rw [atCH_assemble pre _ ⟨.capitalise, "version".toList, [], rest⟩ false
      "@version ".toList (atMatch_version k rest hrs) rfl]
  · rw [atCH_assemble pre _ ⟨.drop, "brief".toList, [], rest⟩ false "@brief ".toList
      (atMatch_brief k rest hrs) rfl]
  · rw [atCH_assemble pre _ ⟨.drop, "description".toList, [], rest⟩ false
      "@description ".toList (atMatch_description k rest hrs) rfl]
  · rw [atCH_assemble pre _ ⟨.drop, "details".toList, [], rest⟩ false
      "@details ".toList (atMatch_details k rest hrs) rfl]
  · rw [atCH_assemble pre _ ⟨.ret, "return".toList, [], rest⟩ true "- Returns: ".toList
      (atMatch_return k rest hrs) rfl]
  · rw [atCH_assemble pre _ ⟨.ret, "return".toList, [], rest⟩ true "- Returns: ".toList
      (atMatch_returns k rest hrs) rfl]
  · rw [atCH_assemble pre _ ⟨.capitalise, "version".toList, [], rest⟩ true
      "- Version: ".toList (atMatch_version k rest hrs) rfl]
  · rw [atCH_assemble pre _ ⟨.drop, "brief".toList, [], rest⟩ true []
      (atMatch_brief k rest hrs) rfl]
  · rw [atCH_assemble pre _ ⟨.drop, "description".toList, [], rest⟩ true []
      (atMatch_description k rest hrs) rfl]
  · rw [atCH_assemble pre _ ⟨.drop, "details".toList, [], rest⟩ true []
      (atMatch_details k rest hrs) rfl]
  · intro hwB hn hwrB
    have hw : ∀ c ∈ n, isWordChar c = true := by simpa [List.all_eq_true] using hwB
    have hrw := head_all_not_word (spaces m ++ rest) hwrB
    have hpd : atRewriteHead (⟨.parameter, "param".toList, n, rest⟩ : AtMatch) false =
        some ("@param ".toList ++ (n ++ [' '])) := by
      rw [show atRewriteHead (⟨.parameter, "param".toList, n, rest⟩ : AtMatch) false =
        some ((("@param ".toList ++ n) ++ []) ++ [' ']) from rfl]
      simp
    have hps : atRewriteHead (⟨.parameter, "param".toList, n, rest⟩ : AtMatch) true =
        some ("- Parameter ".toList ++ (n ++ [':', ' '])) := by
      rw [show atRewriteHead (⟨.parameter, "param".toList, n, rest⟩ : AtMatch) true =
        some ((("- Parameter ".toList ++ n) ++ [':']) ++ [' ']) from rfl]
      simp
    have h1 := atCH_assemble pre
      ("@param".toList ++ (spaces (k + 1) ++ (n ++ (spaces m ++ rest))))
      ⟨.parameter, "param".toList, n, rest⟩ false ("@param ".toList ++ (n ++ [' ']))
      (atMatch_param k m n rest hn hw hrs hrw) hpd
    have h2 := atCH_assemble pre
      ("@parameter".toList ++ (spaces (k + 1) ++ (n ++ (spaces m ++ rest))))
      ⟨.parameter, "param".toList, n, rest⟩ false ("@param ".toList ++ (n ++ [' ']))
      (atMatch_parameter k m n rest hn hw hrs hrw) hpd
    have h3 := atCH_assemble pre
      ("@param".toList ++ (spaces (k + 1) ++ (n ++ (spaces m ++ rest))))
      ⟨.parameter, "param".toList, n, rest⟩ true
      ("- Parameter ".toList ++ (n ++ [':', ' ']))
      (atMatch_param k m n rest hn hw hrs hrw) hps
    have h4 := atCH_assemble pre
      ("@parameter".toList ++ (spaces (k + 1) ++ (n ++ (spaces m ++ rest))))
      ⟨.parameter, "param".toList, n, rest⟩ true
      ("- Parameter ".toList ++ (n ++ [':', ' ']))
      (atMatch_parameter k m n rest hn hw hrs hrw) hps
    refine ⟨by rw [h1], by rw [h1]; simp, by rw [h2], by rw [h3],
      by rw [h3]; simp, by rw [h4]⟩

/-- C5 (witness): `@param foo the foo value` under the Swift-like
convention is rewritten with prefix `- Parameter foo: `. -/
theorem c5_at_command_rewrite_witness :
    (atCommandHanging "@param foo the foo value".toList 0 true).headAttr =
      some "- Parameter foo: ".toList ∧
    (atCommandHanging "@param foo the foo value".toList 0 true).text =
      "- Parameter foo: the foo value".toList := by
  have h := c5_at_command_rewrite [] "the foo value".toList "foo".toList 0 1 (by decide)
  have hp := h.2.2 (by decide) (by decide) (by decide)
  exact ⟨hp.2.2.2.1, hp.2.2.2.2.1⟩

/-- C9 (amended): the ignore-group file tag `@file <argument>` is
recognized under both conventions, so it never triggers the
unrecognised-at-command warning — but it is not removed: both the
tree-based rewriter and the legacy `_at_line` leave the text, including
the tag, exactly as it was, and it is passed on to serialization. -/
theorem c9_file_tag_recognized_but_kept :
    ∀ (pre rest : List Char) (k : Nat),
      rest.head?.all (fun c => !(c = ' ')) = true →
      (∀ swift : Bool,
        atCommandHanging (pre ++ ("@file".toList ++ (spaces (k + 1) ++ rest)))
            pre.length swift =
          { text := pre ++ ("@file".toList ++ (spaces (k + 1) ++ rest)),
            hanging := pre.length, warned := false, headAttr := none }) ∧
      (∀ swift : Bool,
        atLine ("@file".toList ++ (spaces (k + 1) ++ rest)) swift =
          ((none, "@file".toList ++ (spaces (k + 1) ++ rest)), false)) := by
  intro pre rest k hA
  have hrs := head_all_not_space rest hA
  have hm := atMatch_file k rest hrs
  constructor
  · intro swift
    simp only [atCommandHanging, List.drop_left, hm]
    rfl
  · intro swift
    simp only [atLine, hm]
    rfl

/-- C9 (counterexample): the concrete paragraph text `@file main.c note`
is left untouched (it still appears in the element text that
serialization writes out) under both conventions, and no warning is
emitted — contradicting the claim that the tag does not appear in the
serialized output. -/
theorem c9_counterexample_file_tag_in_output :
    atCommandHanging "@file main.c note".toList 0 true =
      { text := "@file main.c note".toList, hanging := 0, warned := false,
        headAttr := none } ∧
    atCommandHanging "@file main.c note".toList 0 false =
      { text := "@file main.c note".toList, hanging := 0, warned := false,
        headAttr := none } ∧
    atLine "@file main.c note".toList true =
      ((none, "@file main.c note".toList), false) ∧
    atLine "@file main.c note".toList false =
      ((none, "@file main.c note".toList), false) := by
  refine ⟨by decide, by decide, by decide, by decide⟩

/-- C9 (witness): the amended statement at a concrete file tag. -/
theorem c9_file_tag_kept_witness :
    atCommandHanging "@file main.py data".toList 0 false =
      { text := "@file main.py data".toList, hanging := 0, warned := false,
        headAttr := none } := by
  exact (c9_file_tag_recognized_but_kept [] "main.py data".toList 0 (by decide)).1 false

/-! ## C10: duplicate fragment names across content files -/

/-- `find?` over an append when the left part already finds a match. -/
theorem find?_append_some {α : Type} (p : α → Bool) (l₁ l₂ : List α) (a : α)
    (h : l₁.find? p = some a) : (l₁ ++ l₂).find? p = some a := by
  induction l₁ with
  | nil => simp [List.find?] at h
  | cons x xs ih =>
    rw [List.find?_cons] at h
    rw [List.cons_append, List.find?_cons]
    cases hp : p x with
    | true => rw [hp] at h; exact h
    | false => rw [hp] at h; exact ih h

/-- `find?` over an append when the left part finds nothing. -/
theorem find?_append_none {α : Type} (p : α → Bool) (l₁ l₂ : List α)
    (h : l₁.find? p = none) : (l₁ ++ l₂).find? p = l₂.find? p := by
  induction l₁ with
  | nil => simp
  | cons x xs ih =>
    rw [List.find?_cons] at h
    cases hp : p x with
    | true => rw [hp] at h; exact Option.noConfusion h
    | false =>
      rw [hp] at h
      rw [List.cons_append, List.find?_cons, hp]
      exact ih h

/-- The keep-last lookup loop of `_get_content` returns the last matching
entry, i.e. the first match of the reversed cache list. -/
theorem foldl_keepLast (frag : List Char) :
    ∀ (L : List CacheEntry) (acc : Option CacheEntry),
      L.foldl (fun a c => if c.fragment = frag then some c else a) acc =
        (match L.reverse.find? (fun c => c.fragment = frag) with
         | some c => some c
         | none => acc) := by
  intro L
  induction L with
  | nil => intro acc; rfl
  | cons x xs ih =>
    intro acc
    rw [List.foldl_cons, ih]
    rw [List.reverse_cons]
    cases hf : xs.reverse.find? (fun c => decide (c.fragment = frag)) with
    | some c =>
      rw [find?_append_some _ _ [x] c hf]
    | none =>
      rw [find?_append_none _ _ [x] hf]
      rw [List.find?_cons]
      by_cases hp : x.fragment = frag
      · simp [hp]
      · simp [hp]

/-- Every entry `Cache.read(path)` yields carries that path. -/
theorem cacheReadGo_absPath (p : String) :
    ∀ (lines : List (List Char)) (st : Option (List Char × List (List Char)))
      (e : CacheEntry), e ∈ cacheReadGo p st lines → e.absPath = p := by
  intro lines
  induction lines with
  | nil =>
    intro st e he
    cases st with
    | none => simp [cacheReadGo] at he
    | some fc =>
      cases fc
      simp [cacheReadGo] at he
      rw [he]
  | cons l ls ih =>
    intro st e he
    cases st with
    | none =>
      rw [cacheReadGo] at he
      exact ih _ e he
    | some fc =>
      rcases fc with ⟨frag, content⟩
      rw [cacheReadGo] at he
      split at he
      · rcases List.mem_cons.mp he with rfl | he
        · rfl
        · exact ih _ e he
      · exact ih _ e he

/-- What a successful `load_file` pass does to the getter state: the
file's fragments end up reversed at the front of the cache, and the path
is appended once per fragment. -/
theorem loadFileGo_acc (p : String) :
    ∀ (es : List CacheEntry) (st : GetterState) (seen : List (List Char))
      (st' : GetterState),
      loadFileGo p st seen es = .ok st' →
      st'.cachedFragments = es.reverse ++ st.cachedFragments ∧
      st'.cachedFiles = st.cachedFiles ++ List.replicate es.length p := by
  intro es
  induction es with
  | nil =>
    intro st seen st' h
    simp only [loadFileGo] at h
    cases h
    simp
  | cons e es ih =>
    intro st seen st' h
    simp only [loadFileGo] at h
    split at h
    · exact Except.noConfusion h
    · have hi := ih _ _ _ h
      refine ⟨?_, ?_⟩
      · rw [hi.1]; simp
      · rw [hi.2]; simp [List.replicate_succ, List.append_assoc]

/-- C10: with the same fragment name in two loaded content files, the
cache-only lookup (`doc://#frag`, empty host) does not fail and is
deterministic: the prepend-on-load cache order combined with the
keep-last scan returns the entry from the earliest-loaded file. -/
theorem c10_duplicate_fragment_earliest_file :
    ∀ (p₁ p₂ : String) (c₁ c₂ : List (List Char)) (name : List Char)
      (st₁ st₂ : GetterState) (e₁ : CacheEntry),
      p₁ ≠ p₂ →
      loadFile ⟨[], []⟩ p₁ c₁ = .ok st₁ →
      loadFile st₁ p₂ c₂ = .ok st₂ →
      (cacheRead p₁ c₁).find? (fun c => c.fragment = name) = some e₁ →
      (∃ e₂ ∈ cacheRead p₂ c₂, e₂.fragment = name) →
      getContentCacheOnly st₂ name = .ok e₁ ∧ e₁.absPath = p₁ := by
  intro p₁ p₂ c₁ c₂ name st₁ st₂ e₁ hne h₁ h₂ hfind _hdup
  have hload₁ : loadFileGo p₁ ⟨[], []⟩ [] (cacheRead p₁ c₁) = .ok st₁ := by
    simpa [loadFile] using h₁
  have hacc₁ := loadFileGo_acc p₁ (cacheRead p₁ c₁) ⟨[], []⟩ [] st₁ hload₁
  have hp₂ : ¬ p₂ ∈ st₁.cachedFiles := by
    rw [hacc₁.2]
    intro hmem
    simp only [List.nil_append] at hmem
    exact hne (List.eq_of_mem_replicate hmem).symm
  have hload₂ : loadFileGo p₂ st₁ [] (cacheRead p₂ c₂) = .ok st₂ := by
    simpa [loadFile, hp₂] using h₂
  have hacc₂ := loadFileGo_acc p₂ (cacheRead p₂ c₂) st₁ [] st₂ hload₂
  have hrev : st₂.cachedFragments.reverse = cacheRead p₁ c₁ ++ cacheRead p₂ c₂ := by
    rw [hacc₂.1, hacc₁.1]
    simp
  constructor
  · have hk := foldl_keepLast name st₂.cachedFragments none
    rw [hrev] at hk
    rw [find?_append_some _ _ _ e₁ hfind] at hk
    simp only [getContentCacheOnly, hk]
  · exact cacheReadGo_absPath p₁ c₁ none e₁
      (List.mem_of_find?_eq_some hfind)

/-- C10 (witness): two files both declaring fragment `dup`; lookup
returns the entry of the first-loaded file. -/
theorem c10_duplicate_fragment_witness :
    getContentCacheOnly
      (GetterState.mk
        [⟨"b.md", "dup".toList, ["text2\n".toList]⟩,
         ⟨"a.md", "dup".toList, ["text\n".toList]⟩]
        ["a.md", "b.md"]) "dup".toList =
      .ok ⟨"a.md", "dup".toList, ["text\n".toList]⟩ ∧
    (⟨"a.md", "dup".toList, ["text\n".toList]⟩ : CacheEntry).absPath = "a.md" := by
  refine c10_duplicate_fragment_earliest_file "a.md" "b.md"
    ["# dup\n".toList, "text\n".toList] ["# dup\n".toList, "text2\n".toList]
    "dup".toList
    ⟨[⟨"a.md", "dup".toList, ["text\n".toList]⟩], ["a.md"]⟩
    ⟨[⟨"b.md", "dup".toList, ["text2\n".toList]⟩,
      ⟨"a.md", "dup".toList, ["text\n".toList]⟩], ["a.md", "b.md"]⟩
    ⟨"a.md", "dup".toList, ["text\n".toList]⟩
    (by decide) rfl rfl rfl
    ⟨⟨"b.md", "dup".toList, ["text2\n".toList]⟩, by decide, by decide⟩

/-! ## C7: single-line fragment destructuring -/

/-- `find?` for the updated key over the in-place update map. -/
theorem find?_map_set_k (k v : String) :
    ∀ a : List (String × String),
      (a.map (fun p => if p.1 = k then (k, v) else p)).find? (fun p => p.1 = k) =
        (match a.find? (fun p => p.1 = k) with
         | some _ => some (k, v)
         | none => none) := by
  intro a
  induction a with
  | nil => rfl
  | cons p ps ih =>
    by_cases hp : p.1 = k
    · simp [List.map_cons, List.find?_cons, hp]
    · simp [List.map_cons, List.find?_cons, hp, ih]

/-- `find?` for a different key is unchanged by the in-place update
map. -/
theorem find?_map_set_ne (k v k' : String) (hne : k' ≠ k) :
    ∀ a : List (String × String),
      (a.map (fun p => if p.1 = k then (k, v) else p)).find? (fun p => p.1 = k') =
        a.find? (fun p => p.1 = k') := by
  intro a
  induction a with
  | nil => rfl
  | cons p ps ih =>
    by_cases hp : p.1 = k
    · have h1 : ¬(k = k') := fun hh => hne hh.symm
      have h2 : ¬p.1 = k' := fun hh => hne (hp ▸ hh.symm)
      simp [List.map_cons, List.find?_cons, hp, h1, h2, ih]
    · simp [List.map_cons, List.find?_cons, hp, ih]

/-- Setting an attribute makes it readable. -/
theorem attrGet_attrSet_self (a : List (String × String)) (k v : String) :
    attrGet (attrSet a k v) k = some v := by
  unfold attrSet
  cases hf : a.find? (fun p => p.1 = k) with
  | none =>
    simp only [hf, Option.isSome_none, Bool.false_eq_true, if_false]
    unfold attrGet
    rw [find?_append_none _ _ _ hf]
    simp [List.find?_cons]
  | some q =>
    simp only [hf, Option.isSome_some, if_true]
    unfold attrGet
    rw [find?_map_set_k k v a, hf]
    rfl

/-- Setting one attribute leaves the others alone. -/
theorem attrGet_attrSet_ne (a : List (String × String)) (k v k' : String)
    (hne : k' ≠ k) : attrGet (attrSet a k v) k' = attrGet a k' := by
  unfold attrSet
  cases hf : a.find? (fun p => p.1 = k) with
  | none =>
    simp only [hf, Option.isSome_none, Bool.false_eq_true, if_false]
    unfold attrGet
    cases hf' : a.find? (fun p => p.1 = k') with
    | none =>
      rw [find?_append_none _ _ _ hf']
      have h1 : ¬(k = k') := fun hh => hne hh.symm
      simp [List.find?_cons, h1, hf']
    | some q =>
      rw [find?_append_some _ _ _ _ hf']
  | some q =>
    simp only [hf, Option.isSome_some, if_true]
    unfold attrGet
    rw [find?_map_set_ne k v k' hne a]

mutual
/-- A subtree with no `contentLines='1'` node is not acted on by the
`lift_singles` search. -/
theorem lsStepT_none : ∀ t : MTree, countCL1T t = 0 → lsStepT t = none
  | .node tg a x c => by
    intro h
    rw [countCL1T] at h
    have hcond : ¬(attrGet a "contentLines" = some "1") := by
      intro hc
      rw [if_pos hc] at h
      omega
    have hc0 : countCL1L c = 0 := by
      rw [if_neg hcond] at h
      omega
    rw [lsStepT, if_neg hcond, lsStepL_none c hc0]
/-- List version of `lsStepT_none`. -/
theorem lsStepL_none : ∀ ts : List MTree, countCL1L ts = 0 → lsStepL ts = none
  | [] => by intro _; rfl
  | t :: ts => by
    intro h
    rw [countCL1L] at h
    have h1 : countCL1T t = 0 := by omega
    have h2 : countCL1L ts = 0 := by omega
    rw [lsStepL, lsStepT_none t h1, lsStepL_none ts h2]
end

/-- The `lift_singles` search skips a clean forest of older siblings. -/
theorem lsStepL_skip :
    ∀ (pre rest : List MTree), countCL1L pre = 0 →
      lsStepL (pre ++ rest) =
        (match lsStepL rest with
         | some (.ok rs) => some (.ok (pre ++ rs))
         | other => other) := by
  intro pre
  induction pre with
  | nil =>
    intro rest _
    cases hr : lsStepL rest with
    | none => simp [hr]
    | some r =>
      cases r with
      | ok rs => simp [hr]
      | error e => simp [hr]
  | cons t ts ih =>
    intro rest h
    rw [countCL1L] at h
    have h1 : countCL1T t = 0 := by omega
    have h2 : countCL1L ts = 0 := by omega
    rw [List.cons_append, lsStepL, lsStepT_none t h1, ih rest h2]
    cases hr : lsStepL rest with
    | none => simp
    | some r =>
      cases r with
      | ok rs => simp
      | error e => simp

/-- One action followed by quiescence makes the `lift_singles` loop
finish in one step. -/
theorem lsLoop_step_then_done (f : Nat) (t : MTree) (c' : List MTree)
    (h1 : lsStepL t.children = some (.ok c'))
    (h2 : lsStepL c' = none) :
    lsLoop (f + 1) t = .ok (t.setChildren c') := by
  rw [lsLoop, h1]
  show lsLoop f (t.setChildren c') = .ok (t.setChildren c')
  have hc : (t.setChildren c').children = c' := by cases t; rfl
  rw [lsLoop, hc, h2]

/-- Counting `contentLines='1'` nodes ignores an update to a different
attribute. -/
theorem countCL1T_setAttr_other (g : MTree) (k v : String)
    (hk : ("contentLines" : String) ≠ k) :
    countCL1T (g.setAttr k v) = countCL1T g := by
  cases g with
  | node tg a x c =>
    rw [MTree.setAttr, countCL1T, countCL1T, attrGet_attrSet_ne a k v _ hk]

/-- `countCL1L` is additive over append. -/
theorem countCL1L_append :
    ∀ a b : List MTree, countCL1L (a ++ b) = countCL1L a + countCL1L b := by
  intro a
  induction a with
  | nil => intro b; simp [countCL1L]
  | cons p ps ih =>
    intro b
    rw [List.cons_append, countCL1L, ih, countCL1L]
    omega

/-- C7: a resolved reference whose fetched fragment had exactly one
content line (`contentLines='1'`) and exactly one child, a `paragraph`
wrapper with children, is destructured by `lift_singles`: the paragraph
node is removed and its children promoted directly under the reference
node (the first promoted child gaining `liftedSingle='True'`, the
reference's `contentLines` becoming `lifted`). -/
theorem c7_lift_singles_destructure :
    ∀ (pre post gs : List MTree) (g : MTree) (rtag : String)
      (rattrs : List (String × String)) (rtext : Option String)
      (aattrs : List (String × String)) (atext : Option String)
      (pattrs : List (String × String)) (ptext : Option String),
      countCL1L pre = 0 → countCL1L post = 0 → countCL1L (g :: gs) = 0 →
      attrGet aattrs "contentLines" = some "1" →
      liftSingles (.node rtag rattrs rtext
          (pre ++ .node "doc_uri" aattrs atext
            [.node "paragraph" pattrs ptext (g :: gs)] :: post)) =
        .ok (.node rtag rattrs rtext
          (pre ++ .node "doc_uri" (attrSet aattrs "contentLines" "lifted") atext
              (g.setAttr "liftedSingle" "True" :: gs) :: post)) := by
  intro pre post gs g rtag rattrs rtext aattrs atext pattrs ptext hpre hpost hgs ha
  have hstep : lsStepL
      (pre ++ MTree.node "doc_uri" aattrs atext
        [.node "paragraph" pattrs ptext (g :: gs)] :: post) =
      some (.ok (pre ++ MTree.node "doc_uri" (attrSet aattrs "contentLines" "lifted")
        atext (g.setAttr "liftedSingle" "True" :: gs) :: post)) := by
    rw [lsStepL_skip pre _ hpre]
    rw [lsStepL, lsStepT, if_pos ha]
    rfl
  have hdone : lsStepL
      (pre ++ MTree.node "doc_uri" (attrSet aattrs "contentLines" "lifted")
        atext (g.setAttr "liftedSingle" "True" :: gs) :: post) = none := by
    apply lsStepL_none
    rw [countCL1L_append, hpre, countCL1L, hpost]
    rw [countCL1T, attrGet_attrSet_self]
    rw [countCL1L, countCL1T_setAttr_other g _ _ (by decide)]
    rw [if_neg (by decide : ¬(some "lifted" = some "1"))]
    rw [countCL1L] at hgs
    omega
  have hf : countCL1L
      (pre ++ MTree.node "doc_uri" aattrs atext
        [.node "paragraph" pattrs ptext (g :: gs)] :: post) =
      (countCL1L pre +
        (countCL1L [MTree.node "paragraph" pattrs ptext (g :: gs)] +
          countCL1L post)) + 1 := by
    rw [countCL1L_append, countCL1L, countCL1T, if_pos ha]
    omega
  have happ := lsLoop_step_then_done
    (countCL1L pre +
      (countCL1L [MTree.node "paragraph" pattrs ptext (g :: gs)] + countCL1L post))
    (MTree.node rtag rattrs rtext
      (pre ++ MTree.node "doc_uri" aattrs atext
        [.node "paragraph" pattrs ptext (g :: gs)] :: post))
    (pre ++ MTree.node "doc_uri" (attrSet aattrs "contentLines" "lifted")
      atext (g.setAttr "liftedSingle" "True" :: gs) :: post)
    hstep hdone
  rw [liftSingles]
  rw [show (MTree.node rtag rattrs rtext
      (pre ++ MTree.node "doc_uri" aattrs atext
        [.node "paragraph" pattrs ptext (g :: gs)] :: post)).children =
    pre ++ MTree.node "doc_uri" aattrs atext
        [.node "paragraph" pattrs ptext (g :: gs)] :: post from rfl]
  rw [hf, happ]
  rfl

/-- C7 (witness): a one-line resolved reference with its implicit
paragraph wrapper, destructured. -/
theorem c7_lift_singles_destructure_witness :
    liftSingles (.node "markdown" [] none
      [.node "doc_uri"
        [("resolved", "True"), ("uri", "doc://#x"), ("contentLines", "1"),
         ("content", "Hello world")] none
        [.node "paragraph" [("newlines", "2")] none
          [.node "text" [("layout", "span")] (some "Hello world") []]]]) =
      .ok (.node "markdown" [] none
        [.node "doc_uri"
          [("resolved", "True"), ("uri", "doc://#x"), ("contentLines", "lifted"),
           ("content", "Hello world")] none
          [.node "text" [("layout", "span"), ("liftedSingle", "True")]
            (some "Hello world") []]]) := by
  exact c7_lift_singles_destructure [] [] []
    (.node "text" [("layout", "span")] (some "Hello world") [])
    "markdown" [] none
    [("resolved", "True"), ("uri", "doc://#x"), ("contentLines", "1"),
     ("content", "Hello world")] none
    [("newlines", "2")] none
    rfl rfl rfl rfl

/-! ### C3: termination and fixed point of the resolution loop -/

theorem descendantsT_children (t : MTree) :
    descendantsT t = descsL t.children := by
  cases t with
  | node tg a x c => rfl

theorem descsL_append (a b : List MTree) :
    descsL (a ++ b) = descsL a ++ descsL b := by
  induction a with
  | nil => rfl
  | cons t ts ih =>
    show (t :: descendantsT t) ++ descsL (ts ++ b)
        = ((t :: descendantsT t) ++ descsL ts) ++ descsL b
    rw [ih, List.append_assoc]

theorem mem_descsL_singleton (t d : MTree) :
    d ∈ descsL [t] ↔ d = t ∨ d ∈ descendantsT t := by
  show d ∈ (t :: descendantsT t) ++ descsL [] ↔ _
  simp [descsL]

mutual
theorem descendantsT_setSrc (s : String) : ∀ t : MTree,
    descendantsT (setSrcT s t) = (descendantsT t).map (setSrcT s)
  | .node tg a x c => by
    show descsL (setSrcL s c) = (descsL c).map (setSrcT s)
    exact descsL_setSrc s c
theorem descsL_setSrc (s : String) : ∀ ts : List MTree,
    descsL (setSrcL s ts) = (descsL ts).map (setSrcT s)
  | [] => rfl
  | t :: ts => by
    show (setSrcT s t :: descendantsT (setSrcT s t)) ++ descsL (setSrcL s ts)
        = ((t :: descendantsT t) ++ descsL ts).map (setSrcT s)
    rw [descendantsT_setSrc s t, descsL_setSrc s ts]
    simp
end

theorem setSrcT_getAttr_ne (s : String) (t : MTree) (k : String)
    (hk : k ≠ "source") : (setSrcT s t).getAttr k = t.getAttr k := by
  cases t with
  | node tg a x c =>
    show attrGet (if tg = "doc_uri" then attrSet a "source" s else a) k
        = attrGet a k
    split
    · exact attrGet_attrSet_ne a "source" s k hk
    · rfl

theorem setSrcT_getAttr_source (s : String) (t : MTree)
    (h : t.tag = "doc_uri") : (setSrcT s t).getAttr "source" = some s := by
  cases t with
  | node tg a x c =>
    show attrGet (if tg = "doc_uri" then attrSet a "source" s else a) "source"
        = some s
    rw [if_pos (show tg = "doc_uri" from h)]
    exact attrGet_attrSet_self a "source" s

theorem keyOK_mono (env : DocEnv) (rank : String → Option String → Nat)
    (b b' : Nat) (hb : b ≤ b') (uo so : Option String)
    (h : keyOK env rank b uo so = true) : keyOK env rank b' uo so = true := by
  cases uo with
  | none => exact absurd h (by simp [keyOK])
  | some u =>
    simp only [keyOK, Bool.and_eq_true, decide_eq_true_eq] at h ⊢
    exact ⟨h.1, lt_of_lt_of_le h.2 hb⟩

theorem keyOK_zero (env : DocEnv) (rank : String → Option String → Nat)
    (uo so : Option String) : keyOK env rank 0 uo so ≠ true := by
  cases uo with
  | none => simp [keyOK]
  | some u => simp [keyOK]

mutual
/-- One pass of `DocGetter.read` over a tree: under an acyclic,
rank-decreasing environment, it succeeds and lowers the rank bound of the
remaining unresolved nodes by one. -/
theorem passT_ok (env : DocEnv) (rank : String → Option String → Nat)
    (henv : EnvOK env rank) (n : Nat) :
    ∀ t : MTree, UnresOK env rank (n + 1) [t] →
      ∃ t', passT env t = .ok t' ∧ UnresOK env rank n [t']
  | .node tg a x c, hok => by
    have hsub : UnresOK env rank (n + 1) c := by
      intro d hd hdres
      exact hok d ((mem_descsL_singleton _ d).mpr
        (Or.inr (by rw [descendantsT_children]; exact hd))) hdres
    obtain ⟨c', hc', hun⟩ := passL_ok env rank henv n c hsub
    by_cases hres : attrGet a "resolved" = some "False"
    · have hself : keyOK env rank (n + 1) (attrGet a "uri")
          (attrGet a "source") = true :=
        hok (.node tg a x c) ((mem_descsL_singleton _ _).mpr (Or.inl rfl)) hres
      rcases hu : attrGet a "uri" with _ | u
      · rw [hu] at hself
        exact absurd hself (by simp [keyOK])
      rw [hu] at hself
      simp only [keyOK, Bool.and_eq_true, decide_eq_true_eq] at hself
      obtain ⟨hfet, hrk⟩ := hself
      obtain ⟨fr, hfr⟩ := Option.isSome_iff_exists.mp hfet
      rcases hfind : env.find?
          (fun e => e.1.1 = u && e.1.2 = attrGet a "source") with _ | e
      · rw [envFetch, hfind] at hfr
        exact absurd hfr (by simp)
      have he2 : e.2 = fr := by
        rw [envFetch, hfind] at hfr
        simpa using hfr
      have hemem : e ∈ env := List.mem_of_find?_eq_some hfind
      have hekey := List.find?_some hfind
      simp only [Bool.and_eq_true, decide_eq_true_eq] at hekey
      obtain ⟨hek1, hek2⟩ := hekey
      refine ⟨.node tg
          (attrSet (attrSet (attrSet a
              "contentLines" (toString fr.lineCount))
              "content" fr.content)
              "resolved" "True")
          x (c' ++ setSrcL fr.newSource fr.children), ?_, ?_⟩
      · rw [passT, if_pos hres]
        simp only [hu, hfr, hc']
      · intro d hd hdres
        rcases (mem_descsL_singleton _ d).mp hd with hd | hd
        · subst hd
          rw [show (MTree.node tg
              (attrSet (attrSet (attrSet a
                  "contentLines" (toString fr.lineCount))
                  "content" fr.content)
                  "resolved" "True")
              x (c' ++ setSrcL fr.newSource fr.children)).getAttr "resolved"
            = some "True" from attrGet_attrSet_self _ _ _] at hdres
          exact absurd hdres (by simp)
        · rw [descendantsT_children] at hd
          rw [show (MTree.node tg
              (attrSet (attrSet (attrSet a
                  "contentLines" (toString fr.lineCount))
                  "content" fr.content)
                  "resolved" "True")
              x (c' ++ setSrcL fr.newSource fr.children)).children
            = c' ++ setSrcL fr.newSource fr.children from rfl, descsL_append]
            at hd
          rcases List.mem_append.mp hd with hd | hd
          · exact hun d hd hdres
          · rw [descsL_setSrc] at hd
            obtain ⟨d0, hd0, rfl⟩ := List.mem_map.mp hd
            have hres0 : d0.getAttr "resolved" = some "False" := by
              rw [setSrcT_getAttr_ne fr.newSource d0 "resolved" (by decide)]
                at hdres
              exact hdres
            obtain ⟨htag0, hkey0⟩ :=
              henv e hemem d0 (by rw [he2]; exact hd0) hres0
            rw [setSrcT_getAttr_ne fr.newSource d0 "uri" (by decide),
              setSrcT_getAttr_source fr.newSource d0 htag0]
            refine keyOK_mono env rank (rank e.1.1 e.1.2) n ?_
              (d0.getAttr "uri") (some fr.newSource) ?_
            · rw [hek1, hek2]
              omega
            · rw [he2] at hkey0
              exact hkey0
    · refine ⟨.node tg a x c', ?_, ?_⟩
      · rw [passT, if_neg hres]
        simp only [hc']
      · intro d hd hdres
        rcases (mem_descsL_singleton _ d).mp hd with hd | hd
        · subst hd
          exact absurd hdres hres
        · rw [descendantsT_children] at hd
          exact hun d hd hdres
theorem passL_ok (env : DocEnv) (rank : String → Option String → Nat)
    (henv : EnvOK env rank) (n : Nat) :
    ∀ ts : List MTree, UnresOK env rank (n + 1) ts →
      ∃ ts', passL env ts = .ok ts' ∧ UnresOK env rank n ts'
  | [], _ => ⟨[], rfl, by intro d hd hdres; cases hd⟩
  | t :: ts, hok => by
    obtain ⟨t', ht', hunT⟩ := passT_ok env rank henv n t (by
      intro d hd hdres
      refine hok d ?_ hdres
      show d ∈ (t :: descendantsT t) ++ descsL ts
      rcases (mem_descsL_singleton t d).mp hd with rfl | hd
      · exact List.mem_append.mpr (Or.inl (List.mem_cons_self _ _))
      · exact List.mem_append.mpr (Or.inl (List.mem_cons_of_mem t hd)))
    obtain ⟨ts', hts', hunL⟩ := passL_ok env rank henv n ts (by
      intro d hd hdres
      refine hok d ?_ hdres
      show d ∈ (t :: descendantsT t) ++ descsL ts
      exact List.mem_append.mpr (Or.inr hd))
    refine ⟨t' :: ts', ?_, ?_⟩
    · rw [passL]
      simp only [ht', hts']
    · intro d hd hdres
      have hd' : d = t' ∨ d ∈ descendantsT t' ∨ d ∈ descsL ts' := by
        have hmem : d ∈ (t' :: descendantsT t') ++ descsL ts' := hd
        simpa [or_assoc] using hmem
      rcases hd' with rfl | hd' | hd'
      · exact hunT d ((mem_descsL_singleton _ d).mpr (Or.inl rfl)) hdres
      · exact hunT d ((mem_descsL_singleton t' d).mpr (Or.inr hd')) hdres
      · exact hunL d hd' hdres
end

theorem readLoop_ok (env : DocEnv) (rank : String → Option String → Nat)
    (henv : EnvOK env rank) :
    ∀ (n : Nat) (t : MTree), UnresOK env rank n t.children →
      ∃ t', readLoop env n t = .ok t' ∧ (unresolvedDescs t').length = 0 := by
  intro n
  induction n with
  | zero =>
    intro t hok
    have hnil : (unresolvedDescs t).length = 0 := by
      have hfil : unresolvedDescs t = [] := by
        rw [unresolvedDescs]
        rw [List.filter_eq_nil_iff]
        intro d hd
        simp only [decide_eq_true_eq]
        intro hdres
        exact keyOK_zero env rank _ _
          (hok d (by rw [← descendantsT_children]; exact hd) hdres)
      rw [hfil]
      rfl
    exact ⟨t, by rw [readLoop, if_pos hnil], hnil⟩
  | succ f ih =>
    intro t hok
    by_cases hz : (unresolvedDescs t).length = 0
    · exact ⟨t, by rw [readLoop, if_pos hz], hz⟩
    · obtain ⟨c', hc', hun⟩ := passL_ok env rank henv f t.children hok
      obtain ⟨t', ht', hz'⟩ := ih (t.setChildren c') (by
        cases t with
        | node tg a x c => exact hun)
      refine ⟨t', ?_, hz'⟩
      rw [readLoop, if_neg hz]
      simp only [hc']
      exact ht'

/-- C3: for a document tree whose reference graph is acyclic — witnessed
by a rank function under which every unresolved reference resolves in the
environment and every reference inside fetched content has strictly
smaller rank — `DocGetter.read`'s resolution loop terminates within the
root rank bound and yields a tree in which `findall(
".//*[@resolved='False']")` finds zero nodes. -/
theorem c3_read_terminates_fixed_point (env : DocEnv)
    (rank : String → Option String → Nat) (n : Nat) (t : MTree)
    (henv : EnvOK env rank) (hok : UnresOK env rank n t.children) :
    ∃ t', readLoop env n t = .ok t' ∧ (unresolvedDescs t').length = 0 :=
  readLoop_ok env rank henv n t hok

/-- Witness for C3 at a two-level reference chain. -/
theorem c3_read_terminates_fixed_point_witness :
    ∃ t', readLoop
        [(("doc://a", none),
          ⟨"a.md", "c", 1,
            [.node "doc_uri" [("resolved", "False"), ("uri", "doc://b")]
              none []]⟩),
         (("doc://b", some "a.md"),
          ⟨"b.md", "d", 1, [.node "text" [] (some "T") []]⟩)]
        3
        (.node "markdown" [] none
          [.node "doc_uri" [("resolved", "False"), ("uri", "doc://a")]
            none []]) = .ok t' ∧
      (unresolvedDescs t').length = 0 :=
  c3_read_terminates_fixed_point _
    (fun u _ => if u = "doc://a" then 2 else 1) 3 _
    (by unfold EnvOK; decide) (by unfold UnresOK; decide)

/-! ### C4: component reconstruction in the legacy line analyzer -/

theorem splitEOL_append (s : List Char) :
    (splitEOL s).1 ++ (splitEOL s).2 = s := by
  show (s.reverse.dropWhile isCRLF).reverse ++ (s.reverse.takeWhile isCRLF).reverse = s
  rw [← List.reverse_append, List.takeWhile_append_dropWhile, List.reverse_reverse]

theorem all_space_spaces (l : List Char)
    (h : l.all (fun c => c = ' ') = true) : spaces l.length = l := by
  induction l with
  | nil => rfl
  | cons c r ih =>
    simp only [List.all_cons, Bool.and_eq_true, decide_eq_true_eq] at h
    show ' ' :: spaces r.length = c :: r
    rw [h.1, ih h.2]

theorem dropLit_eq : ∀ k s r : List Char, dropLit k s = some r → k ++ r = s
  | [], s, r, h => by
    rw [show dropLit [] s = some s from rfl] at h
    cases h
    rfl
  | k :: ks, [], r, h => by cases h
  | k :: ks, c :: cs, r, h => by
    rw [show dropLit (k :: ks) (c :: cs)
      = if c = k then dropLit ks cs else none from rfl] at h
    by_cases hc : c = k
    · rw [if_pos hc] at h
      subst hc
      show c :: (ks ++ r) = c :: cs
      rw [dropLit_eq ks cs r h]
    · rw [if_neg hc] at h
      cases h

theorem matchStartL_recon (s : List Char) (st : StartCapture)
    (h : matchStartL s = some st) :
    st.indentC ++ ['/', '*', '*'] ++ spaces st.marginN ++ st.rest = s := by
  simp only [matchStartL] at h
  split at h
  · cases h
  · rename_i r hd
    have hs : s = s.takeWhile isPySpace ++ ('/' :: '*' :: '*' :: r) := by
      conv_lhs => rw [← List.takeWhile_append_dropWhile (p := isPySpace) (l := s)]
      rw [← dropLit_eq _ _ _ hd]
      rfl
    split at h
    · rename_i r'
      split at h <;> cases h <;> (conv_rhs => rw [hs]) <;>
        simp [spaces, List.replicate]
    · split at h
      · cases h
        conv_rhs => rw [hs]
        simp [spaces, List.replicate]
      · cases h

theorem takeWhile_spaces_eq (s : List Char) :
    spaces ((s.takeWhile (fun c => c = ' ')).length)
      = s.takeWhile (fun c => c = ' ') := by
  induction s with
  | nil => rfl
  | cons c r ih =>
    by_cases hc : c = ' '
    · subst hc
      simp only [List.takeWhile_cons, decide_True, if_true]
      show ' ' :: spaces (List.takeWhile (fun c => c = ' ') r).length
          = ' ' :: List.takeWhile (fun c => c = ' ') r
      rw [ih]
    · simp [List.takeWhile_cons, hc, spaces]

theorem dropWhile_head_not_space (s : List Char) (c : Char) (t : List Char)
    (h : s.dropWhile (fun c => c = ' ') = c :: t) : ¬c = ' ' := by
  induction s with
  | nil => cases h
  | cons d r ih =>
    by_cases hd : d = ' '
    · rw [List.dropWhile_cons, if_pos (by simpa using hd)] at h
      exact ih h
    · rw [List.dropWhile_cons, if_neg (by simpa using hd)] at h
      cases h
      exact hd

theorem matchContL_recon (s : List Char) (c : ContCapture)
    (h : matchContL s = some c) :
    spaces c.indentN ++ (if c.hasSymbol then ['*'] else []) ++
      (if c.hasMargin then [' '] else []) ++ c.rest = s := by
  have hs : s = s.takeWhile (fun x => x = ' ') ++
      s.dropWhile (fun x => x = ' ') := by
    rw [List.takeWhile_append_dropWhile]
  simp only [matchContL] at h
  split at h
  · rename_i r hdw
    split at h
    · cases h
      conv_rhs => rw [hs, hdw]
      simp [takeWhile_spaces_eq]
    · split at h
      · cases h
        rename_i r' heq
        conv_rhs => rw [hs, hdw]
        simp [takeWhile_spaces_eq]
      · rename_i c0 t0
        split at h
        · cases h
          conv_rhs => rw [hs, hdw]
          simp [takeWhile_spaces_eq]
        · cases h
      · cases h
  · rename_i hdw
    cases h
    conv_rhs => rw [hs, hdw]
    simp [takeWhile_spaces_eq]
  · rename_i hdw
    cases h
    conv_rhs => rw [hs, hdw]
    simp [takeWhile_spaces_eq]
  · rename_i c0 t0 hdw
    split at h
    · cases h
      conv_rhs => rw [hs, hdw]
      simp [takeWhile_spaces_eq]
    · cases h

theorem matchContL_none (a : List Char) (h : matchContL a = none) :
    ∃ t, a.dropWhile (fun c => c = ' ') = '*' :: '/' :: t := by
  simp only [matchContL] at h
  split at h
  · rename_i r hdw
    split at h
    · cases h
    · rename_i hnd
      split at h
      · cases h
      · rename_i cc tl hnsp
        split at h
        · cases h
        · rename_i hc0
          have hcs : cc = '/' := not_not.mp (by simpa using hc0)
          rw [hcs] at hdw
          exact ⟨tl, hdw⟩
      · exact absurd (by decide) hnd
  · cases h
  · cases h
  · rename_i cc tl hne1 hne2 hdw
    split at h
    · cases h
    · rename_i hcon
      exfalso
      have hcs : cc = '*' ∨ cc = ' ' := by
        by_contra hboth
        push_neg at hboth
        exact hcon (by simp [hboth.1, hboth.2])
      rcases hcs with rfl | rfl
      · exact hne1 rfl
      · exact dropWhile_head_not_space a ' ' tl hdw rfl

theorem splitStarSlash_recon : ∀ (s : List Char) (a b : List Char),
    splitStarSlash s = some (a, b) → a ++ '*' :: '/' :: b = s := by
  intro s
  induction s with
  | nil => intro a b h; cases h
  | cons c r ih =>
    intro a b h
    rw [splitStarSlash.eq_def] at h
    split at h
    · cases h
    · rename_i r' heq
      cases h
      injection heq with h1 h2
      rw [h1, h2]
      rfl
    · rename_i cc rr hno heq
      injection heq with h1 h2
      subst h1
      subst h2
      rcases hmap : splitStarSlash r with _ | ⟨p1, p2⟩
      · rw [hmap] at h
        cases h
      · rw [hmap] at h
        cases h
        have hr := ih p1 p2 hmap
        show c :: (p1 ++ '*' :: '/' :: p2) = c :: r
        rw [hr]

theorem splitStarSlash_fst_clean : ∀ (s : List Char) (a b : List Char),
    splitStarSlash s = some (a, b) → ∀ u v : List Char,
    a ≠ u ++ '*' :: '/' :: v := by
  intro s
  induction s with
  | nil => intro a b h; cases h
  | cons c r ih =>
    intro a b h
    rw [splitStarSlash.eq_def] at h
    split at h
    · cases h
    · rename_i r' heq
      cases h
      intro u v hu
      cases u <;> cases hu
    · rename_i cc rr hno heq
      injection heq with h1 h2
      subst h1
      subst h2
      rcases hmap : splitStarSlash r with _ | ⟨p1, p2⟩
      · rw [hmap] at h
        cases h
      · rw [hmap] at h
        cases h
        intro u v hu
        rcases u with _ | ⟨u0, u'⟩
        · injection hu with hc hp
          have hp' : p1 = '/' :: v := hp
          have hr := splitStarSlash_recon r p1 p2 hmap
          refine hno (v ++ '*' :: '/' :: p2) hc ?_
          rw [← hr, hp']
          rfl
        · injection hu with hc hp
          have hp' : p1 = u' ++ '*' :: '/' :: v := hp
          exact ih p1 p2 hmap u' v hp' 

theorem matchFinishL_recon (s : List Char) (f : FinishCapture)
    (h : matchFinishL s = some f) :
    f.indentQ.getD [] ++ f.preText ++ '*' :: '/' :: f.rest = s := by
  rw [matchFinishL] at h
  rcases hsp : splitStarSlash s with _ | ⟨p1, p2⟩
  · rw [hsp] at h
    cases h
  · rw [hsp] at h
    have hrec := splitStarSlash_recon s p1 p2 hsp
    simp only [Option.map_some'] at h
    cases h
    split
    · simpa using hrec
    · simpa using hrec

theorem matchFinishL_cont (s : List Char) (f : FinishCapture)
    (h : matchFinishL s = some f) (hne : f.preText ≠ []) :
    matchContL f.preText ≠ none := by
  rw [matchFinishL] at h
  rcases hsp : splitStarSlash s with _ | ⟨p1, p2⟩
  · rw [hsp] at h
    cases h
  · rw [hsp] at h
    simp only [Option.map_some'] at h
    cases h
    by_cases hall : p1.all isBlankChar = true
    · rw [if_pos hall] at hne
      exact absurd rfl hne
    · rw [if_neg hall] at hne ⊢
      intro hcont
      have hcont' : matchContL p1 = none := hcont
      obtain ⟨t, hdw⟩ := matchContL_none p1 hcont'
      have hdec : p1 = p1.takeWhile (fun c => c = ' ') ++ '*' :: '/' :: t := by
        conv_lhs => rw [← List.takeWhile_append_dropWhile
          (p := fun c => c = ' ') (l := p1)]
        rw [hdw]
      exact splitStarSlash_fst_clean s p1 p2 hsp _ t hdec

theorem matchFinishL_some_pre (s : List Char) (f : FinishCapture)
    (h : matchFinishL s = some f) (i : List Char) (hi : f.indentQ = some i) :
    f.preText = [] := by
  rw [matchFinishL] at h
  rcases hsp : splitStarSlash s with _ | ⟨p1, p2⟩
  · rw [hsp] at h
    cases h
  · rw [hsp] at h
    simp only [Option.map_some'] at h
    cases h
    by_cases hall : p1.all isBlankChar = true
    · rw [if_pos hall]
    · rw [if_neg hall] at hi
      cases hi

theorem concat_startCL (num : Nat) (st : StartCapture) (scl : CLRec)
    (hmk : mkStartCL num st = .ok scl) (txt : List Char) :
    clConcat (setCLTextEOL scl txt)
      = st.indentC ++ ['/', '*', '*'] ++ spaces st.marginN ++ txt := by
  unfold mkStartCL at hmk
  split at hmk
  · rename_i hall
    cases hmk
    simp [clConcat, setCLTextEOL, splitEOL_append, all_space_spaces _ hall]
  · cases hmk

theorem concat_contCL (num : Nat) (c : ContCapture) :
    clConcat (setCLTextEOL (mkContCL num c) c.rest)
      = spaces c.indentN ++ (if c.hasSymbol then ['*'] else []) ++
        (if c.hasMargin then [' '] else []) ++ c.rest := by
  rcases c with ⟨ind, hs, hm, rest⟩
  cases hs <;> cases hm <;>
    simp [mkContCL, setCLTextEOL, clConcat, splitEOL_append, spaces,
      List.replicate]

theorem concat_finCL (num : Nat) (f : FinishCapture) (fcl : CLRec)
    (hmk : mkFinishCL num f = .ok fcl) :
    clConcat fcl = f.indentQ.getD [] ++ ['*', '/'] := by
  unfold mkFinishCL at hmk
  split at hmk
  · rename_i hq
    cases hmk
    simp [clConcat, spaces, hq]
  · rename_i i hq
    split at hmk
    · rename_i hall
      cases hmk
      simp [clConcat, spaces, hq]
      exact all_space_spaces i hall
    · cases hmk

theorem exceptBind_ok {α β : Type} (X : Except String α)
    (k : α → Except String β) (y : β)
    (h : (X >>= k) = .ok y) : ∃ x, X = .ok x ∧ k x = .ok y := by
  cases X with
  | error e => exact Except.noConfusion h
  | ok x => exact ⟨x, rfl, h⟩

theorem slashGo_concat : ∀ (f : Nat) (inC : Bool)
    (held : Option (Nat × List Char)) (ls : List (Nat × List Char))
    (items : List LItem),
    slashGo f inC held ls = .ok items →
    (items.map itemConcat).flatten
      = held.elim [] (fun l => l.2) ++ (ls.map (fun l => l.2)).flatten := by
  intro f
  induction f with
  | zero =>
    intro inC held ls items h
    exact Except.noConfusion h
  | succ f ih =>
    intro inC held ls items h
    rcases held with _ | ⟨num, s⟩
    · rcases ls with _ | ⟨l, ls⟩
      · have h' : Except.ok (ε := String) ([] : List LItem) = .ok items := by
          rw [← h]
          cases inC <;> rfl
        cases h'
        rfl
      · have h' : slashGo f inC (some l) ls = .ok items := by
          rw [← h]
          cases inC <;> rfl
        rw [ih inC (some l) ls items h']
        rcases l with ⟨n0, s0⟩
        simp
    · simp only [Option.elim]
      cases inC
      · rw [slashGo] at h
        rcases hst : matchStartL s with _ | st
        · simp only [hst] at h
          by_cases hs : s = []
          · rw [if_pos hs] at h
            rw [ih false none ls items h, hs]
            rfl
          · rw [if_neg hs] at h
            obtain ⟨its, hrec, hk⟩ := exceptBind_ok _ _ _ h
            have hitems : items = .srcLine num s :: its := (Except.ok.inj hk).symm
            rw [hitems, List.map_cons, List.flatten_cons, ih false none ls its hrec]
            rfl
        · simp only [hst] at h
          obtain ⟨scl, hmk, h2⟩ := exceptBind_ok _ _ _ h
          rcases hfin : matchFinishL st.rest with _ | fin
          · simp only [hfin] at h2
            obtain ⟨its, hrec, hk⟩ := exceptBind_ok _ _ _ h2
            have hitems : items = .cl (setCLTextEOL scl st.rest) :: its :=
              (Except.ok.inj hk).symm
            rw [hitems, List.map_cons, List.flatten_cons,
              ih true none ls its hrec]
            show clConcat (setCLTextEOL scl st.rest) ++ ([] ++ _) = _
            rw [concat_startCL num st scl hmk st.rest,
              ← matchStartL_recon s st hst]
            simp
          · simp only [hfin] at h2
            obtain ⟨fcl, hmkf, h3⟩ := exceptBind_ok _ _ _ h2
            obtain ⟨its, hrec, hk⟩ := exceptBind_ok _ _ _ h3
            have hitems : items
                = .cl (setCLTextEOL scl fin.preText) :: .cl fcl :: its :=
              (Except.ok.inj hk).symm
            rw [hitems, List.map_cons, List.flatten_cons, List.map_cons,
              List.flatten_cons, ih false (some (num, fin.rest)) ls its hrec]
            show clConcat (setCLTextEOL scl fin.preText)
              ++ (clConcat fcl ++ (fin.rest ++ _)) = _
            rw [concat_startCL num st scl hmk fin.preText,
              concat_finCL num fin fcl hmkf,
              ← matchStartL_recon s st hst,
              ← matchFinishL_recon st.rest fin hfin]
            rcases hq : fin.indentQ with _ | i
            · simp
            · rw [matchFinishL_some_pre st.rest fin hfin i hq]
              simp
      · rw [slashGo] at h
        rcases hfin : matchFinishL s with _ | fin
        · simp only [hfin] at h
          by_cases hs : s = []
          · rw [if_pos hs] at h
            exact Except.noConfusion h
          · rw [if_neg hs] at h
            rcases hc : matchContL s with _ | c
            · simp only [hc] at h
              exact Except.noConfusion h
            · simp only [hc] at h
              obtain ⟨its, hrec, hk⟩ := exceptBind_ok _ _ _ h
              have hitems : items
                  = .cl (setCLTextEOL (mkContCL num c) c.rest) :: its :=
                (Except.ok.inj hk).symm
              rw [hitems, List.map_cons, List.flatten_cons,
                ih true none ls its hrec]
              show clConcat (setCLTextEOL (mkContCL num c) c.rest)
                ++ ([] ++ _) = _
              rw [concat_contCL num c, ← matchContL_recon s c hc]
              simp
        · simp only [hfin] at h
          obtain ⟨fcl, hmkf, h2⟩ := exceptBind_ok _ _ _ h
          by_cases hpre : fin.preText = []
          · rw [if_pos hpre] at h2
            obtain ⟨its, hrec, hk⟩ := exceptBind_ok _ _ _ h2
            have hitems : items = .cl fcl :: its := (Except.ok.inj hk).symm
            rw [hitems, List.map_cons, List.flatten_cons,
              ih false (some (num, fin.rest)) ls its hrec]
            show clConcat fcl ++ (fin.rest ++ _) = _
            rw [concat_finCL num fin fcl hmkf,
              ← matchFinishL_recon s fin hfin, hpre]
            simp
          · rw [if_neg hpre] at h2
            rcases hc : matchContL fin.preText with _ | c
            · exact absurd hc (matchFinishL_cont s fin hfin hpre)
            · simp only [hc] at h2
              obtain ⟨its, hrec, hk⟩ := exceptBind_ok _ _ _ h2
              have hitems : items
                  = .cl (setCLTextEOL (mkContCL num c) c.rest)
                    :: .cl fcl :: its :=
                (Except.ok.inj hk).symm
              rw [hitems, List.map_cons, List.flatten_cons, List.map_cons,
                List.flatten_cons, ih false (some (num, fin.rest)) ls its hrec]
              show clConcat (setCLTextEOL (mkContCL num c) c.rest)
                ++ (clConcat fcl ++ (fin.rest ++ _)) = _
              rw [concat_contCL num c, concat_finCL num fin fcl hmkf,
                matchContL_recon fin.preText c hc,
                ← matchFinishL_recon s fin hfin]
              rcases hq : fin.indentQ with _ | i
              · simp
              · exact absurd (matchFinishL_some_pre s fin hfin i hq) hpre

/-- C4 (amended): the legacy line analyzer's decomposition round-trips at
stream level: whenever `SlashStarsParser.read` completes without a match
error, the concatenation of all yielded items — a plain line's raw text
verbatim, an analysed line's `indent + symbol + margin + text + eol` —
equals the concatenation of the input lines.  The per-line form of the
claim fails: a FINISH analysis carries no text or end-of-line, the
remainder after `*/` (including the line's end-of-line sequence) being
re-examined and re-emitted as further items. -/
theorem c4_stream_round_trip (ls : List (Nat × List Char))
    (items : List LItem) (h : slashRead ls = .ok items) :
    (items.map itemConcat).flatten = (ls.map (fun l => l.2)).flatten := by
  have hg := slashGo_concat (lineFuel ls) false none ls items h
  simpa using hg

/-- Witness for C4 at a four-line input holding a three-line comment. -/
theorem c4_stream_round_trip_witness :
    slashRead [(1, ['/', '*', '*', ' ', 'a', '\n']),
        (2, [' ', '*', ' ', 'b', '\n']), (3, [' ', '*', '/', '\n']),
        (4, ['x', '\n'])]
      = .ok [
        .cl { number := 1, lineType := .start, indent := some 0,
              symbol := some ['/', '*', '*'], margin := some 1,
              text := some ['a'], eol := some ['\n'] },
        .cl { number := 2, lineType := .cont, indent := some 1,
              symbol := some ['*'], margin := some 1,
              text := some ['b'], eol := some ['\n'] },
        .cl { number := 3, lineType := .finish, indent := some 1,
              symbol := some ['*', '/'], margin := none,
              text := none, eol := none },
        .srcLine 3 ['\n'], .srcLine 4 ['x', '\n']] ∧
    ((([
        LItem.cl { number := 1, lineType := .start, indent := some 0,
                   symbol := some ['/', '*', '*'], margin := some 1,
                   text := some ['a'], eol := some ['\n'] },
        LItem.cl { number := 2, lineType := .cont, indent := some 1,
                   symbol := some ['*'], margin := some 1,
                   text := some ['b'], eol := some ['\n'] },
        LItem.cl { number := 3, lineType := .finish, indent := some 1,
                   symbol := some ['*', '/'], margin := none,
                   text := none, eol := none },
        LItem.srcLine 3 ['\n'],
        LItem.srcLine 4 ['x', '\n']]).map
          itemConcat).flatten
      = (([(1, ['/', '*', '*', ' ', 'a', '\n']),
          (2, [' ', '*', ' ', 'b', '\n']), (3, [' ', '*', '/', '\n']),
          (4, ['x', '\n'])].map
            (fun l : Nat × List Char => l.2)).flatten)) :=
  ⟨rfl, c4_stream_round_trip _ _ rfl⟩

/-- C4 counterexample to the per-line form: in `/** a */` followed by a
newline, the FINISH analysis reconstructs only `*/`, and no single yielded
item reconstructs the whole line — the closing line's end-of-line sequence
comes back as a separate plain line. -/
theorem c4_counterexample_finish_line :
    slashRead [(1, ['/', '*', '*', ' ', 'a', ' ', '*', '/', '\n'])]
      = .ok [
        .cl { number := 1, lineType := .start, indent := some 0,
              symbol := some ['/', '*', '*'], margin := some 1,
              text := some ['a', ' '], eol := some [] },
        .cl { number := 1, lineType := .finish, indent := none,
              symbol := some ['*', '/'], margin := none,
              text := none, eol := none },
        .srcLine 1 ['\n']] ∧
    itemConcat (.cl { number := 1, lineType := .finish, indent := none,
                      symbol := some ['*', '/'], margin := none,
                      text := none, eol := none })
      = ['*', '/'] ∧
    (['*', '/'] : List Char) ≠ ['/', '*', '*', ' ', 'a', ' ', '*', '/', '\n'] ∧
    itemConcat (.cl { number := 1, lineType := .start, indent := some 0,
                      symbol := some ['/', '*', '*'], margin := some 1,
                      text := some ['a', ' '], eol := some [] })
      ≠ ['/', '*', '*', ' ', 'a', ' ', '*', '/', '\n'] :=
  ⟨rfl, rfl, by decide, by decide⟩

/-! ### C6: pass-through of lines outside comment regions -/

theorem numberFrom_append : ∀ (a b : List (List Char)) (n : Nat),
    numberFrom n (a ++ b) = numberFrom n a ++ numberFrom (n + a.length) b := by
  intro a
  induction a with
  | nil => intro b n; simp [numberFrom]
  | cons l a ih =>
    intro b n
    show (n, l) :: numberFrom (n + 1) (a ++ b)
      = (n, l) :: numberFrom (n + 1) a ++ numberFrom (n + (a.length + 1)) b
    rw [ih b (n + 1)]
    have : n + 1 + a.length = n + (a.length + 1) := by omega
    rw [this]
    rfl

theorem lineExpandTabs_numberFrom (t : Nat) :
    ∀ (L : List (List Char)) (n : Nat),
    lineExpandTabs t (numberFrom n L) = numberFrom n (L.map (expandTabs t)) := by
  intro L
  induction L with
  | nil => intro n; rfl
  | cons l L ih =>
    intro n
    show (n, expandTabs t l) :: lineExpandTabs t (numberFrom (n + 1) L)
      = (n, expandTabs t l) :: numberFrom (n + 1) (L.map (expandTabs t))
    rw [ih (n + 1)]

theorem numberFrom_mem : ∀ (L : List (List Char)) (n : Nat)
    (p : Nat × List Char), p ∈ numberFrom n L → p.2 ∈ L := by
  intro L
  induction L with
  | nil => intro n p h; cases h
  | cons l L ih =>
    intro n p h
    cases h with
    | head => exact List.mem_cons_self _ _
    | tail _ h => exact List.mem_cons_of_mem _ (ih (n + 1) p h)

theorem treeGo_plain_step (f : Nat) (num : Nat) (s : List Char)
    (rest : List (Nat × List Char)) (items : List TItem)
    (hne : s ≠ []) (hst : matchStartL s = none)
    (h : treeGo f false none ((num, s) :: rest) = .ok items) :
    ∃ f' items', f' ≤ f ∧ treeGo f' false none rest = .ok items' ∧
      items = .lineE num s :: items' := by
  cases f with
  | zero => exact Except.noConfusion h
  | succ f =>
    have h1 : treeGo f false (some (num, s)) rest = .ok items := h
    cases f with
    | zero => exact Except.noConfusion h1
    | succ f =>
      rw [treeGo] at h1
      simp only [hst] at h1
      rw [if_neg hne] at h1
      obtain ⟨its, hrec, hk⟩ := exceptBind_ok _ _ _ h1
      exact ⟨f, its, by omega, hrec, (Except.ok.inj hk).symm⟩

theorem treeGo_plain_prefix : ∀ (ps tail : List (Nat × List Char)) (f : Nat)
    (items : List TItem),
    (∀ p ∈ ps, p.2 ≠ [] ∧ matchStartL p.2 = none) →
    treeGo f false none (ps ++ tail) = .ok items →
    ∃ f' items', f' ≤ f ∧ treeGo f' false none tail = .ok items' ∧
      items = ps.map (fun p => TItem.lineE p.1 p.2) ++ items' := by
  intro ps
  induction ps with
  | nil =>
    intro tail f items _ h
    exact ⟨f, items, le_rfl, h, by simp⟩
  | cons p ps ih =>
    intro tail f items hok h
    obtain ⟨num, s⟩ := p
    obtain ⟨hne, hst⟩ := hok (num, s) (List.mem_cons_self _ _)
    obtain ⟨f1, its1, hle1, h1, heq1⟩ :=
      treeGo_plain_step f num s (ps ++ tail) items hne hst h
    obtain ⟨f', its', hle', h', heq'⟩ := ih tail f1 its1
      (fun q hq => hok q (List.mem_cons_of_mem _ hq)) h1
    exact ⟨f', its', by omega, h', by simp [heq1, heq']⟩

theorem commentBlocksGo_lines (ps : List (Nat × List Char)) (rest : List TItem) :
    commentBlocksGo none (ps.map (fun p => TItem.lineE p.1 p.2) ++ rest)
      = ps.map (fun p => COut.lineO p.1 p.2) ++ commentBlocksGo none rest := by
  induction ps with
  | nil => rfl
  | cons p ps ih =>
    show COut.lineO p.1 p.2 :: commentBlocksGo none
        (ps.map (fun p => TItem.lineE p.1 p.2) ++ rest) = _
    rw [ih]
    rfl

theorem writeLinesModel_lines (render : Nat → List TItem → List (List Char))
    (ps : List (Nat × List Char)) (rest : List COut) :
    writeLinesModel render (ps.map (fun p => COut.lineO p.1 p.2) ++ rest)
      = ps.map (fun p => p.2) ++ writeLinesModel render rest := by
  induction ps with
  | nil => rfl
  | cons p ps ih =>
    show p.2 :: writeLinesModel render
        (ps.map (fun p => COut.lineO p.1 p.2) ++ rest) = _
    rw [ih]
    rfl

theorem commentBlocksGo_lines_nil (ps : List (Nat × List Char)) :
    commentBlocksGo none (ps.map (fun p => TItem.lineE p.1 p.2))
      = ps.map (fun p => COut.lineO p.1 p.2) := by
  conv_lhs => rw [← List.append_nil (List.map (fun p => TItem.lineE p.1 p.2) ps)]
  exact (commentBlocksGo_lines ps []).trans (List.append_nil _)

theorem writeLinesModel_lines_nil (render : Nat → List TItem → List (List Char))
    (ps : List (Nat × List Char)) :
    writeLinesModel render (ps.map (fun p => COut.lineO p.1 p.2))
      = ps.map (fun p => p.2) := by
  conv_lhs => rw [← List.append_nil (List.map (fun p => COut.lineO p.1 p.2) ps)]
  exact (writeLinesModel_lines render ps []).trans (List.append_nil _)

theorem numberFrom_snd : ∀ (L : List (List Char)) (n : Nat),
    (numberFrom n L).map (fun p => p.2) = L := by
  intro L
  induction L with
  | nil => intro n; rfl
  | cons l L ih =>
    intro n
    show l :: (numberFrom (n + 1) L).map (fun p => p.2) = l :: L
    rw [ih (n + 1)]

theorem lineExpandTabs_append (t : Nat) (a b : List (Nat × List Char)) :
    lineExpandTabs t (a ++ b) = lineExpandTabs t a ++ lineExpandTabs t b :=
  List.map_append _ a b

theorem c6_input_shape (ls₁ ls₂ : List (List Char)) :
    lineExpandTabs 4 (lineElements
        (ls₁ ++ [['/', '*', '*', ' ', 'c', ' ', '*', '/', '\n']] ++ ls₂))
      = numberFrom 1 (ls₁.map (expandTabs 4))
        ++ (1 + ls₁.length, ['/', '*', '*', ' ', 'c', ' ', '*', '/', '\n'])
          :: numberFrom (1 + ls₁.length + 1) (ls₂.map (expandTabs 4)) := by
  show lineExpandTabs 4 (numberFrom 1
      (ls₁ ++ [['/', '*', '*', ' ', 'c', ' ', '*', '/', '\n']] ++ ls₂)) = _
  rw [List.append_assoc,
    numberFrom_append ls₁
      ([['/', '*', '*', ' ', 'c', ' ', '*', '/', '\n']] ++ ls₂) 1,
    numberFrom_append [['/', '*', '*', ' ', 'c', ' ', '*', '/', '\n']] ls₂
      (1 + ls₁.length),
    lineExpandTabs_append, lineExpandTabs_append,
    lineExpandTabs_numberFrom, lineExpandTabs_numberFrom,
    lineExpandTabs_numberFrom]
  rfl

/-- C6 (amended): lines outside comment regions pass through the tree
pipeline in their original order, but tab-expanded rather than byte-for-
byte unchanged: `line_expand_tabs` runs on every line before
`line_star_slash`, so a plain line containing a tab is modified.  Stated
for an arbitrary comment renderer and an arbitrary run of plain lines
(non-empty after expansion, matching no comment start) on either side of a
one-line comment. -/
theorem c6_outside_lines_tab_expanded
    (render : Nat → List TItem → List (List Char))
    (ls₁ ls₂ : List (List Char)) (items : List TItem)
    (h₁ : ls₁.all (fun l => !(expandTabs 4 l).isEmpty
        && (matchStartL (expandTabs 4 l)).isNone) = true)
    (h₂ : ls₂.all (fun l => !(expandTabs 4 l).isEmpty
        && (matchStartL (expandTabs 4 l)).isNone) = true)
    (h : lineStarSlash (lineExpandTabs 4 (lineElements
        (ls₁ ++ [['/', '*', '*', ' ', 'c', ' ', '*', '/', '\n']] ++ ls₂)))
      = .ok items) :
    writeLinesModel render (commentBlocksTree items)
      = ls₁.map (expandTabs 4)
        ++ render (1 + ls₁.length)
          [.partE { number := 1 + ls₁.length, part := .start, indentT := none,
                    symbolT := some ['/', '*', '*'], marginT := some [' '],
                    textT := ['c', ' '], eolT := some [] },
           .partE { number := 1 + ls₁.length, part := .finish, indentT := none,
                    symbolT := some ['*', '/'], marginT := none,
                    textT := [], eolT := none }]
        ++ ['\n'] :: ls₂.map (expandTabs 4) := by
  rw [lineStarSlash, c6_input_shape ls₁ ls₂] at h
  have hplain : ∀ L : List (List Char),
      L.all (fun l => !(expandTabs 4 l).isEmpty
        && (matchStartL (expandTabs 4 l)).isNone) = true →
      ∀ n : Nat, ∀ p ∈ numberFrom n (L.map (expandTabs 4)),
        p.2 ≠ [] ∧ matchStartL p.2 = none := by
    intro L hL n p hp
    obtain ⟨l, hl, hel⟩ := List.mem_map.mp (numberFrom_mem _ _ _ hp)
    have hb := List.all_eq_true.mp hL l hl
    simp only [Bool.and_eq_true, Bool.not_eq_true',
      List.isEmpty_eq_false, Option.isNone_iff_eq_none] at hb
    rw [← hel]
    exact ⟨hb.1, hb.2⟩
  obtain ⟨f1, its1, _, h1, heq1⟩ := treeGo_plain_prefix _ _ _ _
    (hplain ls₁ h₁ 1) h
  rcases f1 with _ | f1
  · exact Except.noConfusion h1
  have h1' : treeGo f1 false (some (1 + ls₁.length,
      ['/', '*', '*', ' ', 'c', ' ', '*', '/', '\n']))
      (numberFrom (1 + ls₁.length + 1) (ls₂.map (expandTabs 4)))
      = .ok its1 := h1
  rcases f1 with _ | f1
  · exact Except.noConfusion h1'
  have h2' : (treeGo f1 false (some (1 + ls₁.length, ['\n']))
        (numberFrom (1 + ls₁.length + 1) (ls₂.map (expandTabs 4)))
      >>= fun its => Except.ok (TItem.partE ⟨1 + ls₁.length, .start, none, some ['/', '*', '*'], some [' '], ['c', ' '], some []⟩ ::
        TItem.partE ⟨1 + ls₁.length, .finish, none, some ['*', '/'], none, [], none⟩ :: its))
      = .ok its1 := h1'
  obtain ⟨its2, hrec2, hk2⟩ := exceptBind_ok _ _ _ h2'
  rcases f1 with _ | f1
  · exact Except.noConfusion hrec2
  have h3' : (treeGo f1 false none
        (numberFrom (1 + ls₁.length + 1) (ls₂.map (expandTabs 4)))
      >>= fun its => Except.ok (TItem.lineE (1 + ls₁.length) ['\n'] :: its))
      = .ok its2 := hrec2
  obtain ⟨its3, hrec3, hk3⟩ := exceptBind_ok _ _ _ h3'
  obtain ⟨f4, its4, _, h4, heq4⟩ := treeGo_plain_prefix
    (numberFrom (1 + ls₁.length + 1) (ls₂.map (expandTabs 4))) [] f1 its3
    (hplain ls₂ h₂ _) (by rw [List.append_nil]; exact hrec3)
  rcases f4 with _ | f4
  · exact Except.noConfusion h4
  have h4' : Except.ok (ε := String) ([] : List TItem) = .ok its4 := h4
  have hits4 : its4 = [] := (Except.ok.inj h4').symm
  have hits3 : its3 = (numberFrom (1 + ls₁.length + 1) (ls₂.map (expandTabs 4))).map (fun p => TItem.lineE p.1 p.2) := by
    rw [heq4, hits4, List.append_nil]
  have hits2 : its2 = TItem.lineE (1 + ls₁.length) ['\n'] :: its3 :=
    (Except.ok.inj hk3).symm
  have hits1 : its1 = TItem.partE ⟨1 + ls₁.length, .start, none, some ['/', '*', '*'], some [' '], ['c', ' '], some []⟩ ::
      TItem.partE ⟨1 + ls₁.length, .finish, none, some ['*', '/'], none, [], none⟩ :: its2 :=
    (Except.ok.inj hk2).symm
  rw [heq1, hits1, hits2, hits3, commentBlocksTree, commentBlocksGo_lines]
  have hmid : commentBlocksGo none (TItem.partE ⟨1 + ls₁.length, .start, none, some ['/', '*', '*'], some [' '], ['c', ' '], some []⟩ ::
      TItem.partE ⟨1 + ls₁.length, .finish, none, some ['*', '/'], none, [], none⟩ ::
      TItem.lineE (1 + ls₁.length) ['\n'] :: (numberFrom (1 + ls₁.length + 1) (ls₂.map (expandTabs 4))).map (fun p => TItem.lineE p.1 p.2))
      = COut.commentO (1 + ls₁.length) [TItem.partE ⟨1 + ls₁.length, .start, none, some ['/', '*', '*'], some [' '], ['c', ' '], some []⟩,
          TItem.partE ⟨1 + ls₁.length, .finish, none, some ['*', '/'], none, [], none⟩]
        :: COut.lineO (1 + ls₁.length) ['\n']
        :: commentBlocksGo none ((numberFrom (1 + ls₁.length + 1) (ls₂.map (expandTabs 4))).map (fun p => TItem.lineE p.1 p.2)) :=
    rfl
  rw [hmid, writeLinesModel_lines]
  have hw : writeLinesModel render (
      COut.commentO (1 + ls₁.length) [TItem.partE ⟨1 + ls₁.length, .start, none, some ['/', '*', '*'], some [' '], ['c', ' '], some []⟩,
          TItem.partE ⟨1 + ls₁.length, .finish, none, some ['*', '/'], none, [], none⟩]
        :: COut.lineO (1 + ls₁.length) ['\n']
        :: commentBlocksGo none ((numberFrom (1 + ls₁.length + 1) (ls₂.map (expandTabs 4))).map (fun p => TItem.lineE p.1 p.2)))
      = render (1 + ls₁.length) [TItem.partE ⟨1 + ls₁.length, .start, none, some ['/', '*', '*'], some [' '], ['c', ' '], some []⟩,
          TItem.partE ⟨1 + ls₁.length, .finish, none, some ['*', '/'], none, [], none⟩]
        ++ ['\n'] :: writeLinesModel render (commentBlocksGo none ((numberFrom (1 + ls₁.length + 1) (ls₂.map (expandTabs 4))).map (fun p => TItem.lineE p.1 p.2))) :=
    rfl
  rw [hw, commentBlocksGo_lines_nil, writeLinesModel_lines_nil]
  rw [numberFrom_snd, numberFrom_snd, List.append_assoc]

/-- C6 counterexample to "unchanged": a plain line containing a tab is
modified by `line_expand_tabs` before analysis, so the byte-for-byte line
does not reappear in the output. -/
theorem c6_counterexample_tab_line :
    lineStarSlash (lineExpandTabs 4 (lineElements [['\t', 'x', '\n']]))
      = .ok [.lineE 1 [' ', ' ', ' ', ' ', 'x', '\n']] ∧
    writeLinesModel (fun _ _ => []) (commentBlocksTree
        [.lineE 1 [' ', ' ', ' ', ' ', 'x', '\n']])
      = [[' ', ' ', ' ', ' ', 'x', '\n']] ∧
    ([[' ', ' ', ' ', ' ', 'x', '\n']] : List (List Char))
      ≠ [['\t', 'x', '\n']] :=
  ⟨rfl, rfl, by decide⟩

/-- Witness for C6 with one plain line on each side of the comment. -/
theorem c6_outside_lines_witness :
    writeLinesModel (fun _ _ => [['R']]) (commentBlocksTree
      [TItem.lineE 1 ['a', '\n'],
       TItem.partE ⟨1 + 1, .start, none, some ['/', '*', '*'], some [' '],
         ['c', ' '], some []⟩,
       TItem.partE ⟨1 + 1, .finish, none, some ['*', '/'], none, [], none⟩,
       TItem.lineE (1 + 1) ['\n'], TItem.lineE 3 ['b', '\n']])
      = [['a', '\n']].map (expandTabs 4)
        ++ [['R']]
        ++ ['\n'] :: [['b', '\n']].map (expandTabs 4) :=
  c6_outside_lines_tab_expanded (fun _ _ => [['R']])
    [['a', '\n']] [['b', '\n']]
    [TItem.lineE 1 ['a', '\n'],
     TItem.partE ⟨1 + 1, .start, none, some ['/', '*', '*'], some [' '],
       ['c', ' '], some []⟩,
     TItem.partE ⟨1 + 1, .finish, none, some ['*', '/'], none, [], none⟩,
     TItem.lineE (1 + 1) ['\n'], TItem.lineE 3 ['b', '\n']]
    (by decide) (by decide) rfl
